import Mathlib

/-!
Verification development for the recurrent-network unrolling and
differentiation core (package `rnn` and its `seqtoseq` session code).

Shallow embedding conventions:
* `linalg.Vector` is embedded as `List Int` (`Vec`); only structural facts
  about vectors (lengths, concatenation, zero fill) matter for the
  properties below, so integer entries suffice.
* `autofunc.Gradient` maps (keyed by variable pointer identity) are embedded
  as functions from an explicit key type `VarKey` to `Option Vec`;
  intermediate variables created by the code under study get structured
  keys (`inState`, `inputVar`, `joined`), while caller-visible variables
  get opaque `ext` keys.
* Collaborator calls (a Block's stored gradient closure, a raw input's
  `PropagateGradient`, a sub-`SeqFunc`'s `Gradient`) are parameters of the
  embedded functions.  The autofunc layer only accumulates into entries
  that already exist in the map, which is captured by "presence
  preserving" hypotheses where needed.
* Go `panic` sites are embedded as `Option`-returning functions
  (`none` = panic).
-/

/-- Entry type of embedded `linalg.Vector`s. -/
abbrev Vec := List Int

/-- Go `make(linalg.Vector, n)`: a zero vector of length `n`. -/
def zeroVec (n : Nat) : Vec := List.replicate n 0

/-- Identity of a differentiable variable, for keying gradient maps.
`inState t l` / `inputVar t l` are the per-step in-state / input variables
created by a forward unrolling at timestep `t` for lane `l` (also used,
with `t` = record index, for a truncated session's in-state variables);
`joined lane time` are the joined per-timestep variables created by
`Bidirectional.BatchSeqs`; `ext n` is any caller-visible variable. -/
inductive VarKey where
  | inState (t l : Nat)
  | inputVar (t l : Nat)
  | joined (lane time : Nat)
  | ext (n : Nat)
deriving DecidableEq

/-- Embedded `autofunc.Gradient`: a partial map from variables to vectors. -/
def GradMap := VarKey → Option Vec

/-- Map update `g[k] = v`. -/
def gset (g : GradMap) (k : VarKey) (v : Vec) : GradMap :=
  fun k' => if k' = k then some v else g k'

/-- Map deletion `delete(g, k)`. -/
def gdel (g : GradMap) (k : VarKey) : GradMap :=
  fun k' => if k' = k then none else g k'

@[simp] theorem gset_same (g : GradMap) (k : VarKey) (v : Vec) :
    gset g k v k = some v := by simp [gset]

@[simp] theorem gset_other (g : GradMap) (k k' : VarKey) (v : Vec) (h : k' ≠ k) :
    gset g k v k' = g k' := by simp [gset, h]

@[simp] theorem gdel_same (g : GradMap) (k : VarKey) : gdel g k k = none := by
  simp [gdel]

@[simp] theorem gdel_other (g : GradMap) (k k' : VarKey) (h : k' ≠ k) :
    gdel g k k' = g k' := by simp [gdel, h]

/-! ### loopUsedLanes (src/rnn/block_seq_func.go lines 326-336)

Go source:
```
func loopUsedLanes(laneToOut map[int]int, f func(int)) {
    var lane int
    k := len(laneToOut)
    for k > 0 {
        if _, ok := laneToOut[lane]; ok {
            f(lane)
            k--
        }
        lane++
    }
}
```
The embedding returns the list of lanes on which `f` is invoked, in call
order.  The Go `for` loop has no structural bound, so it is embedded with
fuel; `loopUsedLanes` supplies fuel `maxKey + 1`, which is enough to scan
every candidate lane (keys are slice indices, hence non-negative). -/

/-- One fueled run of the `loopUsedLanes` scan: starting at `lane`, still
needing `k` hits, with `fuel` loop iterations available. -/
def luLoop (keys : List Nat) : Nat → Nat → Nat → List Nat
  | _, _, 0 => []
  | 0, _, _ + 1 => []
  | fuel + 1, lane, k + 1 =>
    if lane ∈ keys then lane :: luLoop keys fuel (lane + 1) k
    else luLoop keys fuel (lane + 1) (k + 1)

/-- The order in which `loopUsedLanes` invokes its callback, given the
key set of the `laneToOut` map (as a list; its order models Go's
unspecified map iteration order and is irrelevant, see claim C10). -/
def loopUsedLanes (keys : List Nat) : List Nat :=
  luLoop keys (keys.foldr max 0 + 1) 0 keys.length

theorem luLoop_eq_filter (keys : List Nat) :
    ∀ fuel lane k, luLoop keys fuel lane k =
      (((List.range' lane fuel).filter (fun l => decide (l ∈ keys))).take k) := by
  intro fuel
  induction fuel with
  | zero => intro lane k; cases k <;> simp [luLoop]
  | succ n ih =>
    intro lane k
    cases k with
    | zero => simp [luLoop]
    | succ k =>
      by_cases h : lane ∈ keys <;>
        simp [luLoop, h, List.range'_succ, List.filter_cons, ih]

theorem foldr_max_is_bound (keys : List Nat) :
    ∀ l ∈ keys, l < keys.foldr max 0 + 1 := by
  induction keys with
  | nil => intro l h; cases h
  | cons a as ih =>
    intro l h
    rw [List.mem_cons] at h
    rcases h with rfl | h
    · have : l ≤ max l (as.foldr max 0) := Nat.le_max_left _ _
      simp only [List.foldr]
      omega
    · have h1 := ih l h
      have h2 : as.foldr max 0 ≤ max a (as.foldr max 0) := Nat.le_max_right _ _
      simp only [List.foldr]
      omega

theorem filter_range_length_le (keys : List Nat) (n : Nat) :
    ((List.range n).filter (fun l => decide (l ∈ keys))).length ≤ keys.length := by
  classical
  set f := (List.range n).filter (fun l => decide (l ∈ keys)) with hf
  have hnd : f.Nodup := (List.nodup_range n).filter _
  have hsubset : f ⊆ keys := by
    intro x hx
    have := List.of_mem_filter hx
    simpa using this
  have h1 : f.length = f.toFinset.card := (List.toFinset_card_of_nodup hnd).symm
  have h2 : f.toFinset ⊆ keys.toFinset := by
    intro x hx
    rw [List.mem_toFinset] at hx ⊢
    exact hsubset hx
  calc f.length = f.toFinset.card := h1
    _ ≤ keys.toFinset.card := Finset.card_le_card h2
    _ ≤ keys.length := keys.toFinset_card_le

theorem loopUsedLanes_eq_filter_range (keys : List Nat) :
    loopUsedLanes keys =
      (List.range (keys.foldr max 0 + 1)).filter (fun l => decide (l ∈ keys)) := by
  rw [loopUsedLanes, luLoop_eq_filter, ← List.range_eq_range']
  exact List.take_of_length_le (filter_range_length_le keys _)

/-! ### Block and BlockSeqFunc.BatchSeqs (src/rnn/block_seq_func.go lines 33-75)

A `Block` (src/rnn spec section 4.1) is the stateless per-timestep
transform: a fixed start state and a batched apply.  `batch ins sts`
returns the per-lane outputs and outgoing states (`BlockOutput.Outputs()`
and `BlockOutput.States()`).  Its gradient closure is modelled separately
(see `blockSeqGradient`). -/
structure Block where
  stateSize : Nat
  startState : Vec
  batch : List Vec → List Vec → List Vec × List Vec

/-- The lanes the Go loop over `seqs` does not `continue` past at time `t`:
`for l, seq := range seqs { if len(seq) <= t { continue } ... }`. -/
def activeLanes (seqs : List (List Vec)) (t : Nat) : List Nat :=
  (List.range seqs.length).filter (fun l => decide (t < (seqs.getD l []).length))

/-- Embeds `step.LaneToOut[l]`: positions in a step's batch are assigned in
increasing lane order, so the recorded map sends lane `l` to its index in
the step's active-lane list.  A missing key reads as Go's zero value. -/
def laneToOut (active : List Nat) (l : Nat) : Nat :=
  if l ∈ active then active.indexOf l else 0

/-- One unrolled timestep (`BlockSeqFuncOutputStep`): the active lanes (the
keys of `LaneToOut`, in lane order), the per-position inputs and in-states
(the vectors of `InputVars` / `InStateVars` at the active positions), and
the Block's outputs/out-states for the step. -/
structure SeqStep where
  active : List Nat
  inputs : List Vec
  inStates : List Vec
  outputs : List Vec
  outStates : List Vec
deriving Inhabited

/-- Build the step at time `t` (the loop body of `BatchSeqs`): each active
lane contributes its `t`-th raw input, and its in-state is the shared
start state at `t = 0` or the previous step's out-state at that lane's
recorded position otherwise. -/
def mkStep (B : Block) (seqs : List (List Vec)) (t : Nat)
    (prev : Option SeqStep) : SeqStep :=
  let act := activeLanes seqs t
  let ins := act.map (fun l => (seqs.getD l []).getD t [])
  let sts := act.map (fun l =>
    match prev with
    | none => B.startState
    | some p => p.outStates.getD (laneToOut p.active l) [])
  let bOut := B.batch ins sts
  ⟨act, ins, sts, bOut.1, bOut.2⟩

/-- The `for { ... }` loop of `BatchSeqs`, fueled: it stops as soon as no
lane is active (before invoking the Block), otherwise records the step and
recurs at `t + 1` with the new step as predecessor. -/
def batchSeqsLoop (B : Block) (seqs : List (List Vec)) :
    Nat → Nat → Option SeqStep → List SeqStep
  | 0, _, _ => []
  | fuel + 1, t, prev =>
    if activeLanes seqs t = [] then []
    else
      let step := mkStep B seqs t prev
      step :: batchSeqsLoop B seqs fuel (t + 1) (some step)

/-- Length of the longest sequence in the batch; an upper bound on the
number of loop iterations, used as fuel. -/
def maxLen (seqs : List (List Vec)) : Nat :=
  seqs.foldr (fun s m => max s.length m) 0

/-- Embeds `BlockSeqFunc.BatchSeqs`, restricted to its `Steps` record. -/
def batchSeqs (B : Block) (seqs : List (List Vec)) : List SeqStep :=
  batchSeqsLoop B seqs (maxLen seqs) 0 none

/-- Embeds `res.PackedOut[l]`: each step the lane participates in appends that
lane's output (at its recorded position) to the lane's packed sequence. -/
def packLane (steps : List SeqStep) (l : Nat) : List Vec :=
  match steps with
  | [] => []
  | s :: rest =>
    (if l ∈ s.active then [s.outputs.getD (laneToOut s.active l) []] else [])
      ++ packLane rest l

/-- The full `PackedOut` field: one packed sequence per input lane. -/
def packedOut (B : Block) (seqs : List (List Vec)) : List (List Vec) :=
  (List.range seqs.length).map (fun l => packLane (batchSeqs B seqs) l)

/-- The predecessor step passed to `mkStep` at time `t` (Go reads
`res.Steps[t-1]` when `t > 0`). -/
def prevOf (steps : List SeqStep) : Nat → Option SeqStep
  | 0 => none
  | t + 1 => steps.get? t

theorem length_le_maxLen (seqs : List (List Vec)) :
    ∀ s ∈ seqs, s.length ≤ maxLen seqs := by
  induction seqs with
  | nil => intro s h; cases h
  | cons a as ih =>
    intro s h
    rw [List.mem_cons] at h
    simp only [maxLen, List.foldr]
    rcases h with rfl | h
    · exact Nat.le_max_left _ _
    · exact le_trans (ih s h) (Nat.le_max_right _ _)

theorem activeLanes_nil_iff (seqs : List (List Vec)) (t : Nat) :
    activeLanes seqs t = [] ↔ maxLen seqs ≤ t := by
  constructor
  · intro h
    by_contra hlt
    push_neg at hlt
    have : ∃ s ∈ seqs, t < s.length := by
      by_contra hall
      push_neg at hall
      have : maxLen seqs ≤ t := by
        clear h hlt
        induction seqs with
        | nil => simp [maxLen]
        | cons a as ih =>
          simp only [maxLen, List.foldr]
          have h1 := hall a (List.mem_cons_self a as)
          have h2 : maxLen as ≤ t := by
            apply ih
            intro s hs
            exact hall s (List.mem_cons_of_mem a hs)
          simp only [maxLen] at h2
          omega
      omega
    obtain ⟨s, hs, hts⟩ := this
    obtain ⟨l, hl, rfl⟩ := List.getElem_of_mem hs
    have hmem : l ∈ activeLanes seqs t := by
      rw [activeLanes, List.mem_filter]
      refine ⟨List.mem_range.mpr hl, ?_⟩
      simp [List.getD_eq_getElem?_getD, List.getElem?_eq_getElem hl]
      exact hts
    rw [h] at hmem
    cases hmem
  · intro h
    rw [activeLanes, List.filter_eq_nil_iff]
    intro l hl
    simp only [decide_eq_true_eq]
    intro hlt
    rcases Nat.lt_or_ge l seqs.length with h2 | h2
    · have hmem : seqs.getD l [] ∈ seqs := by
        rw [List.getD_eq_getElem?_getD, List.getElem?_eq_getElem h2]
        exact List.getElem_mem _
      have := length_le_maxLen seqs _ hmem
      omega
    · rw [List.getD_eq_getElem?_getD, List.getElem?_eq_none (by omega)] at hlt
      simp at hlt

theorem mem_activeLanes (seqs : List (List Vec)) (t l : Nat) :
    l ∈ activeLanes seqs t ↔ l < seqs.length ∧ t < (seqs.getD l []).length := by
  rw [activeLanes, List.mem_filter, List.mem_range]
  simp

theorem mkStep_active (B : Block) (seqs : List (List Vec)) (t : Nat)
    (prev : Option SeqStep) : (mkStep B seqs t prev).active = activeLanes seqs t := rfl

theorem batchSeqsLoop_length (B : Block) (seqs : List (List Vec)) :
    ∀ fuel t prev, maxLen seqs ≤ t + fuel →
      (batchSeqsLoop B seqs fuel t prev).length = maxLen seqs - t := by
  intro fuel
  induction fuel with
  | zero =>
    intro t prev h
    simp [batchSeqsLoop]
    omega
  | succ n ih =>
    intro t prev h
    rw [batchSeqsLoop]
    by_cases hact : activeLanes seqs t = []
    · rw [if_pos hact]
      rw [activeLanes_nil_iff] at hact
      simp
      omega
    · rw [if_neg hact]
      have ht : t < maxLen seqs := by
        by_contra hge
        push_neg at hge
        exact hact ((activeLanes_nil_iff seqs t).mpr hge)
      simp only [List.length_cons]
      rw [ih (t + 1) _ (by omega)]
      omega

theorem batchSeqsLoop_get? (B : Block) (seqs : List (List Vec)) :
    ∀ i fuel t prev s, (batchSeqsLoop B seqs fuel t prev).get? i = some s →
      s = mkStep B seqs (t + i)
        (match i with
         | 0 => prev
         | j + 1 => (batchSeqsLoop B seqs fuel t prev).get? j) := by
  intro i
  induction i with
  | zero =>
    intro fuel t prev s hs
    cases fuel with
    | zero => simp [batchSeqsLoop] at hs
    | succ n =>
      rw [batchSeqsLoop] at hs
      by_cases hact : activeLanes seqs t = []
      · rw [if_pos hact] at hs; simp at hs
      · rw [if_neg hact] at hs
        simp at hs
        simpa using hs.symm
  | succ j ih =>
    intro fuel t prev s hs
    cases fuel with
    | zero => simp [batchSeqsLoop] at hs
    | succ n =>
      rw [batchSeqsLoop] at hs ⊢
      by_cases hact : activeLanes seqs t = []
      · rw [if_pos hact] at hs; simp at hs
      · rw [if_neg hact] at hs ⊢
        simp only [List.get?_cons_succ] at hs
        have := ih n (t + 1) (some (mkStep B seqs t prev)) s hs
        cases j with
        | zero => simpa using this
        | succ j' =>
          simp only [List.get?_cons_succ]
          rw [this]
          congr 1
          omega

theorem packLane_loop_length (B : Block) (seqs : List (List Vec)) :
    ∀ fuel t prev l, l < seqs.length → maxLen seqs ≤ t + fuel →
      (packLane (batchSeqsLoop B seqs fuel t prev) l).length =
        (seqs.getD l []).length - t := by
  have hlen : ∀ l, l < seqs.length → (seqs.getD l []).length ≤ maxLen seqs := by
    intro l hl
    apply length_le_maxLen
    rw [List.getD_eq_getElem?_getD, List.getElem?_eq_getElem hl]
    exact List.getElem_mem _
  intro fuel
  induction fuel with
  | zero =>
    intro t prev l hl h
    simp [batchSeqsLoop, packLane]
    have := hlen l hl
    simp only [List.getD_eq_getElem?_getD] at this
    omega
  | succ n ih =>
    intro t prev l hl h
    rw [batchSeqsLoop]
    by_cases hact : activeLanes seqs t = []
    · rw [if_pos hact]
      rw [activeLanes_nil_iff] at hact
      have := hlen l hl
      simp [packLane]
      simp only [List.getD_eq_getElem?_getD] at this
      omega
    · rw [if_neg hact]
      rw [packLane]
      by_cases hmem : l ∈ (mkStep B seqs t prev).active
      · rw [if_pos hmem]
        rw [mkStep_active, mem_activeLanes] at hmem
        simp only [List.length_append, List.length_cons, List.length_nil]
        rw [ih (t + 1) _ l hl (by omega)]
        omega
      · rw [if_neg hmem]
        rw [mkStep_active, mem_activeLanes] at hmem
        push_neg at hmem
        have hle : (seqs.getD l []).length ≤ t := hmem hl
        simp only [List.nil_append]
        rw [ih (t + 1) _ l hl (by omega)]
        omega

/-- Claim C1: `BlockSeqFunc.BatchSeqs` unrolls the Block once per timestep
`t` over exactly the lanes whose sequence has at least `t + 1` elements
(`activeLanes`): the unrolling has one step per time up to the longest
sequence length, each recorded step is built by `mkStep` from the lane's
`t`-th raw input and its incoming state (the previous step's out-state at
the lane's recorded position, or the shared start state at `t = 0`), and
each lane's packed output sequence has exactly as many entries as that
lane's input sequence. -/
theorem C1_blockSeqFunc_batchSeqs_unroll (B : Block) (seqs : List (List Vec)) :
    (batchSeqs B seqs).length = maxLen seqs
    ∧ (∀ t s, (batchSeqs B seqs).get? t = some s →
        s = mkStep B seqs t (prevOf (batchSeqs B seqs) t)
        ∧ s.active = activeLanes seqs t
        ∧ s.inputs = (activeLanes seqs t).map (fun l => (seqs.getD l []).getD t []))
    ∧ (∀ l, l < seqs.length →
        ((packedOut B seqs).getD l []).length = (seqs.getD l []).length) := by
  refine ⟨?_, ?_, ?_⟩
  · exact batchSeqsLoop_length B seqs (maxLen seqs) 0 none (by omega)
  · intro t s hs
    have h := batchSeqsLoop_get? B seqs t (maxLen seqs) 0 none s hs
    have h' : s = mkStep B seqs t (prevOf (batchSeqs B seqs) t) := by
      cases t with
      | zero => simpa [prevOf] using h
      | succ j => simpa [prevOf, batchSeqs] using h
    exact ⟨h', by rw [h', mkStep_active], by rw [h']; rfl⟩
  · intro l hl
    have : (packedOut B seqs).getD l [] = packLane (batchSeqs B seqs) l := by
      rw [packedOut, List.getD_eq_getElem?_getD]
      rw [List.getElem?_map]
      simp [List.getElem?_range hl]
    rw [this, batchSeqs]
    rw [packLane_loop_length B seqs (maxLen seqs) 0 none l hl (by omega)]
    omega

/-- Concrete Block used by witnesses: state size 1, start state `[0]`, and
a batched apply echoing inputs as outputs and states as out-states. -/
def demoBlock : Block := ⟨1, [0], fun ins sts => (ins, sts)⟩

/-- Concrete ragged batch used by witnesses: lane 0 has three timesteps,
lane 1 has one. -/
def demoSeqs : List (List Vec) := [[[1], [2], [3]], [[4]]]

/-- Witness for C1 at a concrete ragged batch: lane 1's packed output has
exactly one entry, like its input sequence. -/
theorem C1_witness :
    (1 < demoSeqs.length ∧
      ((packedOut demoBlock demoSeqs).getD 1 []).length = (demoSeqs.getD 1 []).length)
    ∧ ((packedOut demoBlock demoSeqs).getD 1 []).length = 1 :=
  ⟨⟨by decide, (C1_blockSeqFunc_batchSeqs_unroll demoBlock demoSeqs).2.2 1 (by decide)⟩,
    by decide⟩

theorem foldr_max_perm_invariant {keys keys' : List Nat} (p : keys.Perm keys') :
    keys.foldr max 0 = keys'.foldr max 0 := by
  induction p with
  | nil => rfl
  | cons x _ ih => simp [List.foldr, ih]
  | swap x y l =>
    simp only [List.foldr]
    rw [← Nat.max_assoc, Nat.max_comm y x, Nat.max_assoc]
  | trans _ _ ih1 ih2 => rw [ih1, ih2]

/-- Claim C10: `loopUsedLanes` invokes its callback exactly once per key of
the lane-to-output map and in strictly increasing key order, and its visit
sequence is independent of the order in which the map's keys are
enumerated (Go map iteration order); `blockSeqGradient`, the embedding of
`BlockSeqFuncOutput.Gradient`, iterates lanes only through
`loopUsedLanes`, so its per-lane propagation sequence is deterministic. -/
theorem C10_loopUsedLanes_once_increasing_deterministic (keys : List Nat) :
    (∀ l, (loopUsedLanes keys).count l = if l ∈ keys then 1 else 0)
    ∧ (loopUsedLanes keys).Sorted (· < ·)
    ∧ (∀ keys' : List Nat, keys.Perm keys' → loopUsedLanes keys = loopUsedLanes keys') := by
  refine ⟨?_, ?_, ?_⟩
  · intro l
    rw [loopUsedLanes_eq_filter_range]
    by_cases h : l ∈ keys
    · rw [if_pos h, List.count_filter (by simpa using h)]
      have hb := foldr_max_is_bound keys l h
      exact List.count_eq_one_of_mem (List.nodup_range _) (List.mem_range.mpr hb)
    · rw [if_neg h, List.count_eq_zero]
      intro hmem
      exact h (by simpa using List.of_mem_filter hmem)
  · rw [loopUsedLanes_eq_filter_range]
    exact (List.pairwise_lt_range _).filter _
  · intro keys' p
    rw [loopUsedLanes_eq_filter_range, loopUsedLanes_eq_filter_range]
    rw [foldr_max_perm_invariant p]
    apply List.filter_congr
    intro x _
    simp [p.mem_iff]

/-- Witness for C10: on the concrete key set `{2, 0, 5}` the visit order is
`[0, 2, 5]` regardless of enumeration order. -/
theorem C10_witness :
    ([2, 0, 5] : List Nat).Perm [5, 2, 0]
    ∧ loopUsedLanes [2, 0, 5] = loopUsedLanes [5, 2, 0]
    ∧ loopUsedLanes [2, 0, 5] = [0, 2, 5] :=
  ⟨by decide,
    (C10_loopUsedLanes_once_increasing_deterministic [2, 0, 5]).2.2 [5, 2, 0] (by decide),
    by decide⟩

/-! ### Bidirectional.BatchSeqs (src/unnamed/part_000 lines 51-79, 268-277)

A sub-`SeqFunc`'s forward behaviour is embedded as a function from input
sequences (per-lane lists of value vectors) to output sequences
(`ResultSeqs.OutputSeqs()`). -/

/-- Helper: `getD` on a `map` over `range`. -/
theorem getD_map_range {α : Type} (n : Nat) (f : Nat → α) (i : Nat) (d : α)
    (h : i < n) : ((List.range n).map f).getD i d = f i := by
  rw [List.getD_eq_getElem?_getD, List.getElem?_map, List.getElem?_range h]
  rfl

/-- One lane of `reverseInputSeqs`: the Go loop writes
`res[i][len(s)-(j+1)] = element`, so reading position `j` yields the
element at `len(s)-(j+1)`. -/
def reverseSeqGo (s : List Vec) : List Vec :=
  (List.range s.length).map (fun j => s.getD (s.length - (j + 1)) [])

/-- Embeds `reverseInputSeqs`: every lane's sequence reversed in time. -/
def reverseInputSeqs (seqs : List (List Vec)) : List (List Vec) :=
  seqs.map reverseSeqGo

theorem reverseSeqGo_eq_reverse (s : List Vec) : reverseSeqGo s = s.reverse := by
  apply List.ext_getElem
  · simp [reverseSeqGo]
  · intro i h1 h2
    have hi : i < s.length := by simpa [reverseSeqGo] using h1
    simp only [reverseSeqGo, List.getElem_map, List.getElem_range]
    rw [List.getElem_reverse]
    rw [List.getD_eq_getElem?_getD,
      List.getElem?_eq_getElem (show s.length - (i + 1) < s.length by omega)]
    simp only [Option.getD_some]
    congr 1
    omega

/-- The joined sequences fed to the `Output` sub-function: for each of the
`len(seqs)` lanes, time `t` is the forward output at `t` concatenated with
the backward output at `N-(t+1)`, `N` being the lane's forward-output
length (src/unnamed/part_000 lines 55-71). -/
def joinSeqs (numLanes : Nat) (fOut bOut : List (List Vec)) : List (List Vec) :=
  (List.range numLanes).map (fun lane =>
    let forwSeq := fOut.getD lane []
    let backSeq := bOut.getD lane []
    (List.range forwSeq.length).map (fun time =>
      forwSeq.getD time [] ++ backSeq.getD (forwSeq.length - (time + 1)) []))

/-- The three sub-functions of a `Bidirectional`, by forward behaviour. -/
structure BidirSeqFunc where
  Forward : List (List Vec) → List (List Vec)
  Backward : List (List Vec) → List (List Vec)
  Output : List (List Vec) → List (List Vec)

/-- Embeds `Bidirectional.BatchSeqs` restricted to output sequences: run `Forward`
on the batch, `Backward` on the time-reversed batch, join per (lane, time),
and feed the joined sequence to `Output`. -/
def bidirBatchSeqs (b : BidirSeqFunc) (seqs : List (List Vec)) : List (List Vec) :=
  b.Output (joinSeqs seqs.length (b.Forward seqs) (b.Backward (reverseInputSeqs seqs)))

/-- Claim C5: `Bidirectional.BatchSeqs` runs the `Backward` sub-function on
the time-reversed sequences, and with an identity combiner its output at
(lane, time `t`) is the forward sub-output at `t` concatenated with the
backward sub-output at `N-1-t`, `N` the lane's length (forward sub-output
lengths matching input lengths). -/
theorem C5_bidirectional_joined_output
    (F Bk : List (List Vec) → List (List Vec)) (seqs : List (List Vec))
    (hFlen : ∀ lane, lane < seqs.length →
      ((F seqs).getD lane []).length = (seqs.getD lane []).length) :
    reverseInputSeqs seqs = seqs.map List.reverse
    ∧ (bidirBatchSeqs ⟨F, Bk, id⟩ seqs).length = seqs.length
    ∧ ∀ lane, lane < seqs.length →
        ((bidirBatchSeqs ⟨F, Bk, id⟩ seqs).getD lane []).length = (seqs.getD lane []).length
        ∧ ∀ t, t < (seqs.getD lane []).length →
            ((bidirBatchSeqs ⟨F, Bk, id⟩ seqs).getD lane []).getD t [] =
              ((F seqs).getD lane []).getD t []
                ++ ((Bk (seqs.map List.reverse)).getD lane []).getD
                     ((seqs.getD lane []).length - (t + 1)) [] := by
  have hrev : reverseInputSeqs seqs = seqs.map List.reverse := by
    unfold reverseInputSeqs
    apply List.map_congr_left
    intro s _
    exact reverseSeqGo_eq_reverse s
  have hout : bidirBatchSeqs ⟨F, Bk, id⟩ seqs =
      joinSeqs seqs.length (F seqs) (Bk (seqs.map List.reverse)) := by
    rw [bidirBatchSeqs, hrev]
    rfl
  refine ⟨hrev, ?_, ?_⟩
  · rw [hout]
    simp [joinSeqs]
  · intro lane hlane
    rw [hout]
    rw [joinSeqs, getD_map_range _ _ _ _ hlane]
    constructor
    · have h := hFlen lane hlane
      simp only [List.getD_eq_getElem?_getD] at h
      simp [h]
    · intro t ht
      have ht' : t < ((F seqs).getD lane []).length := by
        rw [hFlen lane hlane]; exact ht
      rw [getD_map_range _ _ _ _ ht']
      rw [hFlen lane hlane]

/-- Witness for C5 on a concrete two-step lane with identity sub-functions:
the combined output at time 0 is the forward entry at 0 joined with the
reversed-lane entry at 1. -/
theorem C5_witness :
    (∀ lane, lane < ([[[1], [2]]] : List (List Vec)).length →
      ((id ([[[1], [2]]] : List (List Vec))).getD lane []).length =
        (([[[1], [2]]] : List (List Vec)).getD lane []).length)
    ∧ ((bidirBatchSeqs ⟨id, id, id⟩ [[[1], [2]]]).getD 0 []).getD 0 [] = [1, 1] :=
  ⟨by decide,
    by
      have h := (C5_bidirectional_joined_output id id [[[1], [2]]] (by decide)).2.2
        0 (by decide)
      rw [(h.2 0 (by decide))]
      decide⟩

/-! ### bidirectionalResult.Gradient (src/unnamed/part_000 lines 169-196, 259-266)

The joined per-timestep variables get keys `VarKey.joined lane time`.  The
three sub-results' `Gradient` methods are collaborator parameters
(`outGrad`, `forwGrad`, `backGrad`); autofunc propagation accumulates only
into entries that already exist, captured by presence-preservation
hypotheses in the theorems. -/

/-- Embeds `seqOutputSize`: the width of the first non-empty output sequence's
first vector, or `0` when all are empty. -/
def seqOutputSize : List (List Vec) → Nat
  | [] => 0
  | outSeq :: rest =>
    if 0 < outSeq.length then (outSeq.headD []).length else seqOutputSize rest

/-- Inner loop of the allocation pass: give each joined variable of one
lane a fresh zero gradient entry (`g[joinedVar] = make(...)`). -/
def allocSeq (lane : Nat) : Nat → List Vec → GradMap → GradMap
  | _, [], g => g
  | time, v :: rest, g =>
    allocSeq lane (time + 1) rest (gset g (VarKey.joined lane time) (zeroVec v.length))

/-- Outer loop of the allocation pass over all lanes. -/
def allocJoinedFrom : Nat → List (List Vec) → GradMap → GradMap
  | _, [], g => g
  | lane, seq :: rest, g => allocJoinedFrom (lane + 1) rest (allocSeq lane 0 seq g)

/-- Embeds the loop over `b.Joined` setting a fresh zero entry
{ g[joinedVar] = make(...) } }`. -/
def allocJoined (joined : List (List Vec)) (g : GradMap) : GradMap :=
  allocJoinedFrom 0 joined g

/-- Inner loop of the deletion pass (`delete(g, joinedVar)`). -/
def delSeq (lane : Nat) : Nat → List Vec → GradMap → GradMap
  | _, [], g => g
  | time, _ :: rest, g => delSeq lane (time + 1) rest (gdel g (VarKey.joined lane time))

/-- Outer loop of the deletion pass over all lanes. -/
def deleteJoinedFrom : Nat → List (List Vec) → GradMap → GradMap
  | _, [], g => g
  | lane, seq :: rest, g => deleteJoinedFrom (lane + 1) rest (delSeq lane 0 seq g)

/-- Deletion of every joined variable's entry after it has been read. -/
def deleteJoined (joined : List (List Vec)) (g : GradMap) : GradMap :=
  deleteJoinedFrom 0 joined g

/-- The accumulated gradient read back for each joined variable
(`joinedUpstream := g[joinedVar]`). -/
def readJoined (joined : List (List Vec)) (g : GradMap) : List (List Vec) :=
  (List.range joined.length).map (fun lane =>
    (List.range (joined.getD lane []).length).map (fun time =>
      (g (VarKey.joined lane time)).getD []))

/-- Embeds `subForw[time] = joinedUpstream[:forwLen]`. -/
def splitForw (forwLen : Nat) (joinedUp : List (List Vec)) : List (List Vec) :=
  joinedUp.map (fun ju => ju.map (fun v => v.take forwLen))

/-- Embeds `subBack[len(joinedSeq)-(time+1)] = joinedUpstream[forwLen:]`: writing
at the reversed index is reading the time-reversed list. -/
def splitBack (forwLen : Nat) (joinedUp : List (List Vec)) : List (List Vec) :=
  joinedUp.map (fun ju => (ju.map (fun v => v.drop forwLen)).reverse)

/-- Embeds `bidirectionalResult.Gradient`: allocate zero entries for all joined
variables, run the combiner's gradient, read and delete each joined
variable's accumulated gradient, split it at the forward-output width, and
propagate the halves into the forward and (time-reversed) backward
sub-results.  (The Go code reads, deletes and splits in a single loop per
lane; the keys are distinct, so reading all entries before deleting them
is equivalent.) -/
def bidirGradient (outGrad forwGrad backGrad : List (List Vec) → GradMap → GradMap)
    (forwardOutSeqs joined upstream : List (List Vec)) (g : GradMap) : GradMap :=
  let g1 := allocJoined joined g
  let g2 := outGrad upstream g1
  let forwLen := seqOutputSize forwardOutSeqs
  let joinedUp := readJoined joined g2
  let g3 := deleteJoined joined g2
  backGrad (splitBack forwLen joinedUp) (forwGrad (splitForw forwLen joinedUp) g3)

theorem seqOutputSize_uniform (fo : List (List Vec)) (w : Nat)
    (hne : ∃ s ∈ fo, s ≠ []) (hw : ∀ s ∈ fo, ∀ v ∈ s, v.length = w) :
    seqOutputSize fo = w := by
  induction fo with
  | nil => obtain ⟨s, hs, _⟩ := hne; cases hs
  | cons a rest ih =>
    rw [seqOutputSize]
    by_cases ha : 0 < a.length
    · rw [if_pos ha]
      apply hw a (List.mem_cons_self a rest)
      cases a with
      | nil => simp at ha
      | cons v vs => exact List.mem_cons_self v vs
    · rw [if_neg ha]
      apply ih
      · obtain ⟨s, hs, hsne⟩ := hne
        rw [List.mem_cons] at hs
        rcases hs with rfl | hs
        · exact absurd (by simpa using List.length_pos.mpr hsne) ha
        · exact ⟨s, hs, hsne⟩
      · intro s hs v hv
        exact hw s (List.mem_cons_of_mem a hs) v hv

/-- Helper: `getD` at an in-range index is `getElem`. -/
theorem getD_eq_getElem_of_lt {α : Type} (l : List α) (i : Nat) (d : α)
    (h : i < l.length) : l.getD i d = l[i] := by
  rw [List.getD_eq_getElem?_getD, List.getElem?_eq_getElem h]
  rfl

/-- Helper: `getD` on a `map` at an in-range index. -/
theorem getD_map_lt {α β : Type} (f : α → β) (l : List α) (i : Nat) (d : β)
    (d' : α) (h : i < l.length) : (l.map f).getD i d = f (l.getD i d') := by
  rw [List.getD_eq_getElem?_getD, List.getElem?_map, List.getElem?_eq_getElem h]
  rw [List.getD_eq_getElem?_getD, List.getElem?_eq_getElem h]
  rfl

theorem readJoined_length (joined : List (List Vec)) (g : GradMap) :
    (readJoined joined g).length = joined.length := by
  simp [readJoined]

theorem readJoined_lane_length (joined : List (List Vec)) (g : GradMap)
    (lane : Nat) (h : lane < joined.length) :
    ((readJoined joined g).getD lane []).length = (joined.getD lane []).length := by
  rw [readJoined, getD_map_range _ _ _ _ h]
  simp

theorem readJoined_entry (joined : List (List Vec)) (g : GradMap) (lane t : Nat)
    (hlane : lane < joined.length) (ht : t < (joined.getD lane []).length) :
    ((readJoined joined g).getD lane []).getD t [] =
      (g (VarKey.joined lane t)).getD [] := by
  rw [readJoined, getD_map_range _ _ _ _ hlane, getD_map_range _ _ _ _ ht]

theorem splitForw_entry (w : Nat) (ju : List (List Vec)) (lane t : Nat)
    (hlane : lane < ju.length) (ht : t < (ju.getD lane []).length) :
    ((splitForw w ju).getD lane []).getD t [] = ((ju.getD lane []).getD t []).take w := by
  rw [splitForw, getD_map_lt _ _ _ _ [] hlane]
  exact getD_map_lt _ _ _ _ [] ht

theorem splitBack_entry (w : Nat) (ju : List (List Vec)) (lane t : Nat)
    (hlane : lane < ju.length) (ht : t < (ju.getD lane []).length) :
    ((splitBack w ju).getD lane []).getD t [] =
      ((ju.getD lane []).getD ((ju.getD lane []).length - (t + 1)) []).drop w := by
  rw [splitBack, getD_map_lt _ _ _ _ [] hlane]
  rw [List.getD_eq_getElem?_getD]
  rw [List.getElem?_reverse (by simpa using ht)]
  simp only [List.length_map, List.getElem?_map]
  have hidx : (ju.getD lane []).length - 1 - t = (ju.getD lane []).length - (t + 1) := by
    omega
  rw [hidx]
  rw [List.getElem?_eq_getElem
    (show (ju.getD lane []).length - (t + 1) < (ju.getD lane []).length by omega)]
  simp only [Option.map_some', Option.getD_some]
  congr 1
  exact (getD_eq_getElem_of_lt _ _ _ (by omega)).symm

theorem splitForw_length (w : Nat) (ju : List (List Vec)) :
    (splitForw w ju).length = ju.length := by simp [splitForw]

theorem splitBack_length (w : Nat) (ju : List (List Vec)) :
    (splitBack w ju).length = ju.length := by simp [splitBack]

theorem splitForw_lane_length (w : Nat) (ju : List (List Vec)) (lane : Nat)
    (h : lane < ju.length) :
    ((splitForw w ju).getD lane []).length = (ju.getD lane []).length := by
  rw [splitForw, getD_map_lt _ _ _ _ [] h]
  simp

theorem splitBack_lane_length (w : Nat) (ju : List (List Vec)) (lane : Nat)
    (h : lane < ju.length) :
    ((splitBack w ju).getD lane []).length = (ju.getD lane []).length := by
  rw [splitBack, getD_map_lt _ _ _ _ [] h]
  simp

/-- Claim C2: `bidirectionalResult.Gradient` splits the combiner's gradient
for each joined per-timestep variable at the fixed offset `w` equal to the
forward sub-output width (`seqOutputSize` of the forward output, which is
`w` whenever the forward outputs have uniform width `w` and some lane is
non-empty): the first `w` entries are handed to the forward sub-result's
`Gradient` at the same (lane, time), and the remainder, reversed in time
within each lane, to the backward sub-result's `Gradient`. -/
theorem C2_bidirResult_gradient_split
    (outGrad forwGrad backGrad : List (List Vec) → GradMap → GradMap)
    (forwardOutSeqs joined upstream : List (List Vec)) (g : GradMap) (w : Nat)
    (hne : ∃ s ∈ forwardOutSeqs, s ≠ [])
    (hw : ∀ s ∈ forwardOutSeqs, ∀ v ∈ s, v.length = w) :
    seqOutputSize forwardOutSeqs = w
    ∧ ∃ FU BU,
        bidirGradient outGrad forwGrad backGrad forwardOutSeqs joined upstream g =
          backGrad BU (forwGrad FU
            (deleteJoined joined (outGrad upstream (allocJoined joined g))))
        ∧ FU.length = joined.length ∧ BU.length = joined.length
        ∧ ∀ lane, lane < joined.length →
            (FU.getD lane []).length = (joined.getD lane []).length
            ∧ (BU.getD lane []).length = (joined.getD lane []).length
            ∧ ∀ t, t < (joined.getD lane []).length →
                (FU.getD lane []).getD t [] =
                  ((outGrad upstream (allocJoined joined g)
                      (VarKey.joined lane t)).getD []).take w
                ∧ (BU.getD lane []).getD t [] =
                  ((outGrad upstream (allocJoined joined g)
                      (VarKey.joined lane
                        ((joined.getD lane []).length - (t + 1)))).getD []).drop w := by
  have hsz := seqOutputSize_uniform forwardOutSeqs w hne hw
  set g2 := outGrad upstream (allocJoined joined g) with hg2
  set ju := readJoined joined g2 with hju
  refine ⟨hsz, splitForw w ju, splitBack w ju, ?_, ?_, ?_, ?_⟩
  · rw [bidirGradient, hsz]
  · rw [splitForw_length, hju, readJoined_length]
  · rw [splitBack_length, hju, readJoined_length]
  · intro lane hlane
    have hlane' : lane < ju.length := by rw [hju, readJoined_length]; exact hlane
    have hll : (ju.getD lane []).length = (joined.getD lane []).length := by
      rw [hju]; exact readJoined_lane_length joined g2 lane hlane
    refine ⟨?_, ?_, ?_⟩
    · rw [splitForw_lane_length w ju lane hlane', hll]
    · rw [splitBack_lane_length w ju lane hlane', hll]
    · intro t ht
      have ht' : t < (ju.getD lane []).length := by rw [hll]; exact ht
      constructor
      · rw [splitForw_entry w ju lane t hlane' ht']
        rw [hju, readJoined_entry joined g2 lane t hlane ht]
      · rw [splitBack_entry w ju lane t hlane' ht']
        rw [hll]
        rw [hju, readJoined_entry joined g2 lane _ hlane (by omega)]

/-- Witness for C2: a concrete instance with forward width 2 and a single
joined two-step lane, with identity collaborators. -/
theorem C2_witness :
    ((∃ s ∈ ([[[7, 7]]] : List (List Vec)), s ≠ [])
      ∧ (∀ s ∈ ([[[7, 7]]] : List (List Vec)), ∀ v ∈ s, v.length = 2))
    ∧ seqOutputSize [[[7, 7]]] = 2 :=
  ⟨⟨by decide, by decide⟩,
    (C2_bidirResult_gradient_split (fun _ g => g) (fun _ g => g) (fun _ g => g)
      [[[7, 7]]] [[[1, 2, 3], [4, 5, 6]]] [] (fun _ => none) 2
      (by decide) (by decide)).1⟩

/-! ### Presence bookkeeping for gradient maps

autofunc's propagation accumulates into existing entries only, so every
collaborator gradient call preserves which keys are present. -/

/-- A map transformer that neither adds nor removes entries. -/
def presPreserving (f : GradMap → GradMap) : Prop :=
  ∀ g k, ((f g) k).isSome = (g k).isSome

/-- A presence-preserving transformer keeps absent keys absent. -/
theorem pres_none {f : GradMap → GradMap} (h : presPreserving f) {g : GradMap}
    {k : VarKey} (hk : g k = none) : f g k = none := by
  have h1 := h g k
  rw [hk] at h1
  cases hfk : f g k with
  | none => rfl
  | some v => rw [hfk] at h1; simp at h1

theorem allocSeq_eq_of_ne (lane : Nat) :
    ∀ seq t0 (g : GradMap) k, (∀ j, j < seq.length → k ≠ VarKey.joined lane (t0 + j)) →
      allocSeq lane t0 seq g k = g k := by
  intro seq
  induction seq with
  | nil => intro t0 g k _; rfl
  | cons v rest ih =>
    intro t0 g k h
    rw [allocSeq]
    rw [ih (t0 + 1) _ k (by
      intro j hj
      have := h (j + 1) (by simpa using Nat.succ_lt_succ hj)
      simpa [Nat.add_assoc, Nat.add_comm 1 j] using this)]
    apply gset_other
    simpa using h 0 (by simp)

theorem allocFrom_eq_of_ne :
    ∀ js lane0 (g : GradMap) k,
      (∀ i j, i < js.length → j < (js.getD i []).length →
        k ≠ VarKey.joined (lane0 + i) j) →
      allocJoinedFrom lane0 js g k = g k := by
  intro js
  induction js with
  | nil => intro lane0 g k _; rfl
  | cons seq rest ih =>
    intro lane0 g k h
    rw [allocJoinedFrom]
    rw [ih (lane0 + 1) _ k (by
      intro i j hi hj
      have := h (i + 1) j (by simpa using Nat.succ_lt_succ hi) (by simpa using hj)
      simpa [Nat.add_assoc, Nat.add_comm 1 i] using this)]
    apply allocSeq_eq_of_ne
    intro j hj
    have := h 0 j (by simp) (by simpa using hj)
    simpa using this

theorem delSeq_eq_of_ne (lane : Nat) :
    ∀ seq t0 (g : GradMap) k, (∀ j, j < seq.length → k ≠ VarKey.joined lane (t0 + j)) →
      delSeq lane t0 seq g k = g k := by
  intro seq
  induction seq with
  | nil => intro t0 g k _; rfl
  | cons v rest ih =>
    intro t0 g k h
    rw [delSeq]
    rw [ih (t0 + 1) _ k (by
      intro j hj
      have := h (j + 1) (by simpa using Nat.succ_lt_succ hj)
      simpa [Nat.add_assoc, Nat.add_comm 1 j] using this)]
    apply gdel_other
    simpa using h 0 (by simp)

theorem delFrom_eq_of_ne :
    ∀ js lane0 (g : GradMap) k,
      (∀ i j, i < js.length → j < (js.getD i []).length →
        k ≠ VarKey.joined (lane0 + i) j) →
      deleteJoinedFrom lane0 js g k = g k := by
  intro js
  induction js with
  | nil => intro lane0 g k _; rfl
  | cons seq rest ih =>
    intro lane0 g k h
    rw [deleteJoinedFrom]
    rw [ih (lane0 + 1) _ k (by
      intro i j hi hj
      have := h (i + 1) j (by simpa using Nat.succ_lt_succ hi) (by simpa using hj)
      simpa [Nat.add_assoc, Nat.add_comm 1 i] using this)]
    apply delSeq_eq_of_ne
    intro j hj
    have := h 0 j (by simp) (by simpa using hj)
    simpa using this

theorem delSeq_none_keep (lane : Nat) :
    ∀ seq t0 (g : GradMap) k, g k = none → delSeq lane t0 seq g k = none := by
  intro seq
  induction seq with
  | nil => intro t0 g k h; exact h
  | cons v rest ih =>
    intro t0 g k h
    rw [delSeq]
    apply ih
    by_cases hk : k = VarKey.joined lane t0
    · subst hk; simp
    · rw [gdel_other _ _ _ hk]; exact h

theorem delFrom_none_keep :
    ∀ js lane0 (g : GradMap) k, g k = none → deleteJoinedFrom lane0 js g k = none := by
  intro js
  induction js with
  | nil => intro lane0 g k h; exact h
  | cons seq rest ih =>
    intro lane0 g k h
    rw [deleteJoinedFrom]
    exact ih (lane0 + 1) _ k (delSeq_none_keep lane0 seq 0 g k h)

theorem delSeq_none_of_mem (lane : Nat) :
    ∀ seq t0 j (g : GradMap), j < seq.length →
      delSeq lane t0 seq g (VarKey.joined lane (t0 + j)) = none := by
  intro seq
  induction seq with
  | nil => intro t0 j g h; simp at h
  | cons v rest ih =>
    intro t0 j g h
    rw [delSeq]
    cases j with
    | zero =>
      apply delSeq_none_keep
      simp
    | succ j' =>
      have := ih (t0 + 1) j' (gdel g (VarKey.joined lane t0)) (by simpa using h)
      simpa [Nat.add_assoc, Nat.add_comm 1 j'] using this

theorem delFrom_none_of_mem :
    ∀ js lane0 i j (g : GradMap), i < js.length → j < (js.getD i []).length →
      deleteJoinedFrom lane0 js g (VarKey.joined (lane0 + i) j) = none := by
  intro js
  induction js with
  | nil => intro lane0 i j g h _; simp at h
  | cons seq rest ih =>
    intro lane0 i j g hi hj
    rw [deleteJoinedFrom]
    cases i with
    | zero =>
      apply delFrom_none_keep
      have := delSeq_none_of_mem lane0 seq 0 j g (by simpa using hj)
      simpa using this
    | succ i' =>
      have := ih (lane0 + 1) i' j (allocSeq lane0 0 seq g) (by simpa using hi)
        (by simpa using hj)
      have h2 := ih (lane0 + 1) i' j (delSeq lane0 0 seq g) (by simpa using hi)
        (by simpa using hj)
      simpa [Nat.add_assoc, Nat.add_comm 1 i'] using h2

/-! ### BlockSeqFuncOutput.Gradient (src/rnn/block_seq_func.go lines 178-227)

The backward replay over the recorded steps.  Per-step intermediate
variables get the keys `VarKey.inState t l` and `VarKey.inputVar t l`.
`inputConst t l` embeds `step.Inputs[l].Constant(g)`, which for the raw
input results is stable across the call (the only keys that change during
the call belong to variables created by this forward pass, which a raw
input cannot depend on). -/

/-- Embeds `rnn.UpstreamGradient` for one step. -/
structure RnnUpstream where
  Outputs : List Vec
  States : List Vec

/-- Collaborator closures: the Block's per-step stored gradient closure
(`step.Outputs.Gradient`), a raw input's `PropagateGradient`, and the
start state's `PropagateGradient`. -/
structure GradCollab where
  stepGrad : Nat → RnnUpstream → GradMap → GradMap
  inputProp : Nat → Nat → Vec → GradMap → GradMap
  startProp : Vec → GradMap → GradMap

/-- Embeds `len(stateVar.Vector)` for lane `l` of a step. -/
def stateVarLen (step : SeqStep) (l : Nat) : Nat :=
  (step.inStates.getD (laneToOut step.active l) []).length

/-- Embeds `len(step.InputVars[l].Vector)` for lane `l` of a step. -/
def inputVarLen (step : SeqStep) (l : Nat) : Nat :=
  (step.inputs.getD (laneToOut step.active l) []).length

/-- First `loopUsedLanes` pass of the backward replay at step `t`: allocate
the zero gradient entries `g[stateVar]` and (for non-constant inputs)
`g[inputVars[l]]`. -/
def phaseASets (t : Nat) (step : SeqStep) (inputConst : Nat → Nat → Bool) :
    List Nat → GradMap → GradMap
  | [], g => g
  | l :: rest, g =>
    let g1 := gset g (VarKey.inState t l) (zeroVec (stateVarLen step l))
    let g2 := if inputConst t l then g1
      else gset g1 (VarKey.inputVar t l) (zeroVec (inputVarLen step l))
    phaseASets t step inputConst rest g2

/-- The per-step upstream assembled in the same pass: caller outputs
upstream at `(l, t)` and the carried state upstream (zero when the lane
had no later step). -/
def stepUpstreamOf (t : Nat) (step : SeqStep) (upstream : List (List Vec))
    (su : Nat → Option Vec) (lanes : List Nat) : RnnUpstream :=
  { Outputs := lanes.map (fun l => (upstream.getD l []).getD t []),
    States := lanes.map (fun l =>
      match su l with
      | some s => s
      | none => zeroVec (stateVarLen step l)) }

/-- Second `loopUsedLanes` pass: harvest each lane's in-state gradient into
the carried state upstreams, delete its entry, and for non-constant inputs
harvest, delete and propagate the input gradient. -/
def phaseC (t : Nat) (inputConst : Nat → Nat → Bool) (C : GradCollab) :
    List Nat → (Nat → Option Vec) × GradMap → (Nat → Option Vec) × GradMap
  | [], acc => acc
  | l :: rest, acc =>
    let su1 := fun l' => if l' = l then acc.2 (VarKey.inState t l) else acc.1 l'
    let g1 := gdel acc.2 (VarKey.inState t l)
    let acc2 := if inputConst t l then (su1, g1)
      else
        let u := (g1 (VarKey.inputVar t l)).getD []
        (su1, C.inputProp t l u (gdel g1 (VarKey.inputVar t l)))
    phaseC t inputConst C rest acc2

/-- One reverse-time iteration of the backward replay (the body of the
`for t := len(r.Steps) - 1; t >= 0; t--` loop). -/
def gradStepIter (steps : List SeqStep) (inputConst : Nat → Nat → Bool)
    (C : GradCollab) (upstream : List (List Vec)) (acc : (Nat → Option Vec) × GradMap)
    (t : Nat) : (Nat → Option Vec) × GradMap :=
  let step := steps.getD t default
  let lanes := loopUsedLanes step.active
  let gA := phaseASets t step inputConst lanes acc.2
  let gB := C.stepGrad t (stepUpstreamOf t step upstream acc.1 lanes) gA
  phaseC t inputConst C lanes (acc.1, gB)

/-- The reverse-time replay loop (`for t := len(r.Steps) - 1; t >= 0; t--`),
returning the final carried state upstreams and gradient map. -/
def gradLoopRun (steps : List SeqStep) (inputConst : Nat → Nat → Bool)
    (C : GradCollab) (upstream : List (List Vec)) (g : GradMap) :
    (Nat → Option Vec) × GradMap :=
  ((List.range steps.length).reverse).foldl
    (gradStepIter steps inputConst C upstream) (fun _ => none, g)

/-- The final pass: propagate every non-nil carried state upstream into the
shared start state, in lane order. -/
def startPropagate (C : GradCollab) (numLanes : Nat) (su : Nat → Option Vec)
    (g : GradMap) : GradMap :=
  (List.range numLanes).foldl
    (fun g l =>
      match su l with
      | some v => C.startProp v g
      | none => g) g

/-- Embeds `BlockSeqFuncOutput.Gradient`: check upstream dimensions (`none` =
panic), replay steps in reverse time order, then propagate the surviving
state upstreams into the shared start state. -/
def blockSeqGradient (steps : List SeqStep) (inputConst : Nat → Nat → Bool)
    (C : GradCollab) (packedOut upstream : List (List Vec)) (g : GradMap) :
    Option GradMap :=
  if upstream.length = packedOut.length
      ∧ ∀ i, i < packedOut.length →
          (upstream.getD i []).length = (packedOut.getD i []).length then
    some (startPropagate C packedOut.length
      (gradLoopRun steps inputConst C upstream g).1
      (gradLoopRun steps inputConst C upstream g).2)
  else none

/-- No in-state or input-variable key has an entry. -/
def noInterm (g : GradMap) : Prop :=
  ∀ t l, g (VarKey.inState t l) = none ∧ g (VarKey.inputVar t l) = none

theorem phaseASets_eq_of_ne (t : Nat) (step : SeqStep) (inputConst : Nat → Nat → Bool) :
    ∀ lanes (g : GradMap) k,
      (∀ l ∈ lanes, k ≠ VarKey.inState t l ∧ k ≠ VarKey.inputVar t l) →
      phaseASets t step inputConst lanes g k = g k := by
  intro lanes
  induction lanes with
  | nil => intro g k _; rfl
  | cons l rest ih =>
    intro g k h
    rw [phaseASets]
    rw [ih _ k (fun l' hl' => h l' (List.mem_cons_of_mem l hl'))]
    have hk := h l (List.mem_cons_self l rest)
    by_cases hc : inputConst t l
    · simp only [if_pos hc]
      exact gset_other _ _ _ _ hk.1
    · simp only [if_neg hc]
      rw [gset_other _ _ _ _ hk.2, gset_other _ _ _ _ hk.1]

theorem phaseC_pres_of_ne (t : Nat) (inputConst : Nat → Nat → Bool) (C : GradCollab)
    (hinp : ∀ t' l v, presPreserving (C.inputProp t' l v)) :
    ∀ lanes su (g : GradMap) k,
      (∀ l ∈ lanes, k ≠ VarKey.inState t l ∧ k ≠ VarKey.inputVar t l) →
      ((phaseC t inputConst C lanes (su, g)).2 k).isSome = (g k).isSome := by
  intro lanes
  induction lanes with
  | nil => intro su g k _; rfl
  | cons l rest ih =>
    intro su g k h
    rw [phaseC]
    have hk := h l (List.mem_cons_self l rest)
    by_cases hc : inputConst t l
    · simp only [if_pos hc]
      rw [ih _ _ k (fun l' hl' => h l' (List.mem_cons_of_mem l hl'))]
      rw [gdel_other _ _ _ hk.1]
    · simp only [if_neg hc]
      rw [ih _ _ k (fun l' hl' => h l' (List.mem_cons_of_mem l hl'))]
      rw [hinp t l _ _ k]
      rw [gdel_other _ _ _ hk.2, gdel_other _ _ _ hk.1]

theorem phaseC_none_keep (t : Nat) (inputConst : Nat → Nat → Bool) (C : GradCollab)
    (hinp : ∀ t' l v, presPreserving (C.inputProp t' l v)) :
    ∀ lanes su (g : GradMap) k, g k = none →
      (phaseC t inputConst C lanes (su, g)).2 k = none := by
  intro lanes
  induction lanes with
  | nil => intro su g k h; exact h
  | cons l rest ih =>
    intro su g k h
    rw [phaseC]
    have hdel1 : gdel g (VarKey.inState t l) k = none := by
      by_cases hk : k = VarKey.inState t l
      · subst hk; simp
      · rw [gdel_other _ _ _ hk]; exact h
    by_cases hc : inputConst t l
    · simp only [if_pos hc]
      exact ih _ _ k hdel1
    · simp only [if_neg hc]
      apply ih
      apply pres_none (hinp t l _)
      by_cases hk : k = VarKey.inputVar t l
      · subst hk; simp
      · rw [gdel_other _ _ _ hk]; exact hdel1

theorem phaseC_clears (t : Nat) (inputConst : Nat → Nat → Bool) (C : GradCollab)
    (hinp : ∀ t' l v, presPreserving (C.inputProp t' l v)) :
    ∀ lanes su (g : GradMap) l, l ∈ lanes →
      (phaseC t inputConst C lanes (su, g)).2 (VarKey.inState t l) = none
      ∧ (inputConst t l = false →
          (phaseC t inputConst C lanes (su, g)).2 (VarKey.inputVar t l) = none) := by
  intro lanes
  induction lanes with
  | nil => intro su g l h; cases h
  | cons l0 rest ih =>
    intro su g l hl
    rw [List.mem_cons] at hl
    rcases hl with rfl | hl
    · rw [phaseC]
      constructor
      · by_cases hc : inputConst t l
        · simp only [if_pos hc]
          exact phaseC_none_keep t inputConst C hinp rest _ _ _ (by simp)
        · simp only [if_neg hc]
          apply phaseC_none_keep t inputConst C hinp rest
          apply pres_none (hinp t l _)
          by_cases hk : VarKey.inState t l = VarKey.inputVar t l
          · exact absurd hk (by simp)
          · rw [gdel_other _ _ _ hk]; simp
      · intro hc
        simp only [if_neg (by simp [hc] : ¬ inputConst t l = true)]
        apply phaseC_none_keep t inputConst C hinp rest
        apply pres_none (hinp t l _)
        simp
    · rw [phaseC]
      by_cases hc : inputConst t l0
      · simp only [if_pos hc]
        exact ih _ _ l hl
      · simp only [if_neg hc]
        exact ih _ _ l hl

theorem phaseASets_inputVar_const (t : Nat) (step : SeqStep)
    (inputConst : Nat → Nat → Bool) :
    ∀ lanes (g : GradMap) l, inputConst t l = true →
      phaseASets t step inputConst lanes g (VarKey.inputVar t l) =
        g (VarKey.inputVar t l) := by
  intro lanes
  induction lanes with
  | nil => intro g l _; rfl
  | cons l0 rest ih =>
    intro g l hc
    rw [phaseASets]
    rw [ih _ l hc]
    by_cases h0 : inputConst t l0
    · simp only [if_pos h0]
      exact gset_other _ _ _ _ (by simp)
    · simp only [if_neg h0]
      have hne : l0 ≠ l := by
        intro hEq
        rw [hEq] at h0
        exact h0 hc
      rw [gset_other _ _ _ _ (by simp [Ne.symm hne]), gset_other _ _ _ _ (by simp)]

theorem isSome_eq_none_trans {a b : Option Vec} (h : a.isSome = b.isSome)
    (hb : b = none) : a = none := by
  subst hb
  cases a with
  | none => rfl
  | some v => simp at h

theorem gradStepIter_inv (steps : List SeqStep) (inputConst : Nat → Nat → Bool)
    (C : GradCollab) (upstream : List (List Vec))
    (hstep : ∀ t u, presPreserving (C.stepGrad t u))
    (hinp : ∀ t l v, presPreserving (C.inputProp t l v)) :
    ∀ t su (g : GradMap), noInterm g →
      noInterm (gradStepIter steps inputConst C upstream (su, g) t).2
      ∧ ∀ k, (∀ t' l', k ≠ VarKey.inState t' l' ∧ k ≠ VarKey.inputVar t' l') →
          ((gradStepIter steps inputConst C upstream (su, g) t).2 k).isSome
            = (g k).isSome := by
  intro t su g hg
  rw [gradStepIter]
  set step := steps.getD t default with hstepdef
  set lanes := loopUsedLanes step.active with hlanes
  set gA := phaseASets t step inputConst lanes g with hgA
  set gB := C.stepGrad t (stepUpstreamOf t step upstream su lanes) gA with hgB
  constructor
  · intro t' l'
    by_cases htl : t' = t ∧ l' ∈ lanes
    · obtain ⟨rfl, hmem⟩ := htl
      constructor
      · exact (phaseC_clears t' inputConst C hinp lanes su gB l' hmem).1
      · by_cases hc : inputConst t' l'
        · have hA : gA (VarKey.inputVar t' l') = g (VarKey.inputVar t' l') :=
            phaseASets_inputVar_const t' step inputConst lanes g l' hc
          have hBnone : gB (VarKey.inputVar t' l') = none := by
            apply isSome_eq_none_trans (hstep t' _ gA _)
            rw [hA]
            exact (hg t' l').2
          exact phaseC_none_keep t' inputConst C hinp lanes su gB _ hBnone
        · exact (phaseC_clears t' inputConst C hinp lanes su gB l' hmem).2
            (by simpa using hc)
    · have hnot : ∀ l ∈ lanes,
          (VarKey.inState t' l' ≠ VarKey.inState t l ∧
            VarKey.inState t' l' ≠ VarKey.inputVar t l)
          ∧ (VarKey.inputVar t' l' ≠ VarKey.inState t l ∧
            VarKey.inputVar t' l' ≠ VarKey.inputVar t l) := by
        intro l hl
        rcases Decidable.em (t' = t) with rfl | hne
        · have hll : l' ≠ l := by
            intro hEq
            exact htl ⟨rfl, hEq ▸ hl⟩
          exact ⟨⟨by simp [hll], by simp⟩, ⟨by simp, by simp [hll]⟩⟩
        · exact ⟨⟨by simp [hne], by simp⟩, ⟨by simp, by simp [hne]⟩⟩
      constructor
      · apply phaseC_none_keep t inputConst C hinp lanes su gB
        apply isSome_eq_none_trans (hstep t _ gA _)
        rw [hgA, phaseASets_eq_of_ne t step inputConst lanes g _
          (fun l hl => (hnot l hl).1)]
        exact (hg t' l').1
      · apply phaseC_none_keep t inputConst C hinp lanes su gB
        apply isSome_eq_none_trans (hstep t _ gA _)
        rw [hgA, phaseASets_eq_of_ne t step inputConst lanes g _
          (fun l hl => (hnot l hl).2)]
        exact (hg t' l').2
  · intro k hk
    have hkl : ∀ l ∈ lanes, k ≠ VarKey.inState t l ∧ k ≠ VarKey.inputVar t l :=
      fun l _ => hk t l
    rw [phaseC_pres_of_ne t inputConst C hinp lanes su gB k hkl]
    rw [hgB, hstep t _ gA k]
    rw [hgA, phaseASets_eq_of_ne t step inputConst lanes g k hkl]

theorem gradLoop_inv (steps : List SeqStep) (inputConst : Nat → Nat → Bool)
    (C : GradCollab) (upstream : List (List Vec))
    (hstep : ∀ t u, presPreserving (C.stepGrad t u))
    (hinp : ∀ t l v, presPreserving (C.inputProp t l v)) :
    ∀ (ts : List Nat) (su : Nat → Option Vec) (g : GradMap), noInterm g →
      noInterm ((ts.foldl (gradStepIter steps inputConst C upstream) (su, g)).2)
      ∧ ∀ k, (∀ t' l', k ≠ VarKey.inState t' l' ∧ k ≠ VarKey.inputVar t' l') →
          (((ts.foldl (gradStepIter steps inputConst C upstream) (su, g)).2 k).isSome
            = (g k).isSome) := by
  intro ts
  induction ts with
  | nil => intro su g hg; exact ⟨hg, fun k _ => rfl⟩
  | cons t ts' ih =>
    intro su g hg
    rw [List.foldl_cons]
    have hiter := gradStepIter_inv steps inputConst C upstream hstep hinp t su g hg
    have hpair : gradStepIter steps inputConst C upstream (su, g) t =
        ((gradStepIter steps inputConst C upstream (su, g) t).1,
          (gradStepIter steps inputConst C upstream (su, g) t).2) := rfl
    rw [hpair]
    have hrec := ih (gradStepIter steps inputConst C upstream (su, g) t).1
      (gradStepIter steps inputConst C upstream (su, g) t).2 hiter.1
    refine ⟨hrec.1, fun k hk => ?_⟩
    rw [hrec.2 k hk, hiter.2 k hk]

theorem startFold_pres (C : GradCollab)
    (hstart : ∀ v, presPreserving (C.startProp v)) (su : Nat → Option Vec) :
    ∀ (L : List Nat) (g : GradMap) k,
      ((L.foldl (fun g l =>
        match su l with
        | some v => C.startProp v g
        | none => g) g) k).isSome = (g k).isSome := by
  intro L
  induction L with
  | nil => intro g k; rfl
  | cons l rest ih =>
    intro g k
    rw [List.foldl_cons]
    cases hsu : su l with
    | none => simpa [hsu] using ih g k
    | some v =>
      simp only [hsu]
      rw [ih _ k, hstart v g k]

theorem startPropagate_pres (C : GradCollab)
    (hstart : ∀ v, presPreserving (C.startProp v)) (n : Nat)
    (su : Nat → Option Vec) (g : GradMap) (k : VarKey) :
    ((startPropagate C n su g) k).isSome = (g k).isSome :=
  startFold_pres C hstart su (List.range n) g k

/-- Claim C4: every gradient-map entry created for an intermediate variable
during a backward call is removed before the call returns.  For
`BlockSeqFuncOutput.Gradient` (given presence-preserving collaborators and
a caller map without intermediate entries) the result has no in-state or
input-variable entries and presence of all other keys is unchanged; for
`bidirectionalResult.Gradient` the result has no joined-variable entries
and presence of all other keys is unchanged. -/
theorem C4_backward_drains_intermediate_entries :
    (∀ (steps : List SeqStep) (inputConst : Nat → Nat → Bool) (C : GradCollab)
        (packedOut upstream : List (List Vec)) (g g' : GradMap),
      (∀ t u, presPreserving (C.stepGrad t u)) →
      (∀ t l v, presPreserving (C.inputProp t l v)) →
      (∀ v, presPreserving (C.startProp v)) →
      noInterm g →
      blockSeqGradient steps inputConst C packedOut upstream g = some g' →
      noInterm g'
      ∧ ∀ k, (∀ t' l', k ≠ VarKey.inState t' l' ∧ k ≠ VarKey.inputVar t' l') →
          (g' k).isSome = (g k).isSome)
    ∧ (∀ (outGrad forwGrad backGrad : List (List Vec) → GradMap → GradMap)
        (forwardOutSeqs joined upstream : List (List Vec)) (g : GradMap),
      (∀ u, presPreserving (outGrad u)) →
      (∀ u, presPreserving (forwGrad u)) →
      (∀ u, presPreserving (backGrad u)) →
      (∀ lane time, g (VarKey.joined lane time) = none) →
      (∀ lane time,
        bidirGradient outGrad forwGrad backGrad forwardOutSeqs joined upstream g
          (VarKey.joined lane time) = none)
      ∧ ∀ k, (∀ lane time, k ≠ VarKey.joined lane time) →
          ((bidirGradient outGrad forwGrad backGrad forwardOutSeqs joined upstream g
              k).isSome = (g k).isSome)) := by
  constructor
  · intro steps inputConst C packedOut upstream g g' hstep hinp hstart hg hsome
    rw [blockSeqGradient] at hsome
    split at hsome
    · have hg' : g' = startPropagate C packedOut.length
          (gradLoopRun steps inputConst C upstream g).1
          (gradLoopRun steps inputConst C upstream g).2 :=
        (Option.some.inj hsome).symm
      have hloop := gradLoop_inv steps inputConst C upstream hstep hinp
        ((List.range steps.length).reverse) (fun _ => none) g hg
      have hloop1 : noInterm (gradLoopRun steps inputConst C upstream g).2 := hloop.1
      constructor
      · intro t l
        rw [hg']
        constructor
        · exact isSome_eq_none_trans
            (startPropagate_pres C hstart _ _ _ _) ((hloop1 t l).1)
        · exact isSome_eq_none_trans
            (startPropagate_pres C hstart _ _ _ _) ((hloop1 t l).2)
      · intro k hk
        rw [hg']
        rw [startPropagate_pres C hstart _ _ _ k]
        exact hloop.2 k hk
    · cases hsome
  · intro outGrad forwGrad backGrad forwardOutSeqs joined upstream g hog hfg hbg hg
    have hend : ∀ k, g k = none →
        (∀ i j, i < joined.length → j < (joined.getD i []).length →
          k ≠ VarKey.joined (0 + i) j) →
        bidirGradient outGrad forwGrad backGrad forwardOutSeqs joined upstream g
          k = none := by
      intro k hknone hkne
      rw [bidirGradient]
      apply pres_none (hbg _)
      apply pres_none (hfg _)
      rw [deleteJoined, delFrom_eq_of_ne joined 0 _ k hkne]
      apply pres_none (hog _)
      rw [allocJoined, allocFrom_eq_of_ne joined 0 g k hkne]
      exact hknone
    constructor
    · intro lane time
      by_cases hcov : lane < joined.length ∧ time < (joined.getD lane []).length
      · rw [bidirGradient]
        apply pres_none (hbg _)
        apply pres_none (hfg _)
        rw [deleteJoined]
        have := delFrom_none_of_mem joined 0 lane time
          (outGrad upstream (allocJoined joined g)) hcov.1 hcov.2
        simpa using this
      · apply hend
        · exact hg lane time
        · intro i j hi hj hEq
          simp only [Nat.zero_add] at hEq
          rw [VarKey.joined.injEq] at hEq
          exact hcov ⟨hEq.1 ▸ hi, by rw [hEq.1, hEq.2]; exact hj⟩
    · intro k hk
      rw [bidirGradient]
      rw [hbg _ _ k, hfg _ _ k]
      rw [deleteJoined, delFrom_eq_of_ne joined 0 _ k (fun i j _ _ => hk (0 + i) j)]
      rw [hog _ _ k]
      rw [allocJoined, allocFrom_eq_of_ne joined 0 g k (fun i j _ _ => hk (0 + i) j)]

/-- Witness for C4 at concrete inputs: identity collaborators, one recorded
step over one lane, and an initially empty gradient map. -/
theorem C4_witness :
    (blockSeqGradient [⟨[0], [[1]], [[0]], [[2]], [[3]]⟩] (fun _ _ => false)
        ⟨fun _ _ g => g, fun _ _ _ g => g, fun _ g => g⟩ [[[2]]] [[[5]]]
        (fun _ => none) = some (fun _ => none))
    ∧ (∀ t l, (fun _ => (none : Option Vec)) (VarKey.inState t l) = none
        ∧ (fun _ => (none : Option Vec)) (VarKey.inputVar t l) = none)
    ∧ ∀ lane time,
        bidirGradient (fun _ g => g) (fun _ g => g) (fun _ g => g)
          [[[7]]] [[[1, 2]]] [] (fun _ => none) (VarKey.joined lane time) = none := by
  have h1 : blockSeqGradient [⟨[0], [[1]], [[0]], [[2]], [[3]]⟩] (fun _ _ => false)
      ⟨fun _ _ g => g, fun _ _ _ g => g, fun _ g => g⟩ [[[2]]] [[[5]]]
      (fun _ => none) = some (fun _ => none) := by
    rw [blockSeqGradient, if_pos (by decide)]
    congr 1
    funext k
    rw [startPropagate]
    have hdrain := (C4_backward_drains_intermediate_entries.1
      [⟨[0], [[1]], [[0]], [[2]], [[3]]⟩] (fun _ _ => false)
      ⟨fun _ _ g => g, fun _ _ _ g => g, fun _ g => g⟩ [[[2]]] [[[5]]]
      (fun _ => none) (startPropagate ⟨fun _ _ g => g, fun _ _ _ g => g, fun _ g => g⟩
        ([[[2]]] : List (List Vec)).length
        (gradLoopRun [⟨[0], [[1]], [[0]], [[2]], [[3]]⟩] (fun _ _ => false)
          ⟨fun _ _ g => g, fun _ _ _ g => g, fun _ g => g⟩ [[[5]]] (fun _ => none)).1
        (gradLoopRun [⟨[0], [[1]], [[0]], [[2]], [[3]]⟩] (fun _ _ => false)
          ⟨fun _ _ g => g, fun _ _ _ g => g, fun _ g => g⟩ [[[5]]] (fun _ => none)).2)
      (fun _ _ g k => rfl) (fun _ _ _ g k => rfl) (fun _ g k => rfl)
      (fun _ _ => ⟨rfl, rfl⟩) (by
        rw [blockSeqGradient, if_pos (by decide)]))
    cases k with
    | inState t l => simpa using (hdrain.1 t l).1
    | inputVar t l => simpa using (hdrain.1 t l).2
    | joined lane time =>
      have := hdrain.2 (VarKey.joined lane time) (fun _ _ => ⟨by simp, by simp⟩)
      simpa using isSome_eq_none_trans this rfl
    | ext n =>
      have := hdrain.2 (VarKey.ext n) (fun _ _ => ⟨by simp, by simp⟩)
      simpa using isSome_eq_none_trans this rfl
  refine ⟨h1, fun t l => ⟨rfl, rfl⟩, fun lane time => ?_⟩
  exact (C4_backward_drains_intermediate_entries.2 (fun _ g => g) (fun _ g => g)
    (fun _ g => g) [[[7]]] [[[1, 2]]] [] (fun _ => none)
    (fun _ g k => rfl) (fun _ g k => rfl) (fun _ g k => rfl)
    (fun _ _ => rfl)).1 lane time

/-! ### seqtoseq truncated-BPTT session (src/unnamed/part_001, package seqtoseq)

`Sample` is one lane's remaining inputs and matching targets.  A
`seqPropStep` is embedded as `SPRecord` (the Block output reduced to its
output/out-state vectors; its gradient closure is the collaborator
`recordGrad`).  The in-state variables of record `i` get keys
`VarKey.inState i lane`. -/

/-- One sequence of the streamed batch: remaining inputs and targets. -/
structure Sample where
  Inputs : List Vec
  Outputs : List Vec
deriving DecidableEq, Inhabited

/-- Embeds `removeEmpty`: drop sequences with no remaining input. -/
def removeEmpty (seqs : List Sample) : List Sample :=
  seqs.filter (fun seq => decide (seq.Inputs.length ≠ 0))

/-- Embeds `removeFirst`: consume each sequence's first input/target, omitting
sequences with exactly one input left.  (Go slices `Inputs[1:]`, which
panics on an empty sequence; callers guarantee non-emptiness.) -/
def removeFirst : List Sample → List Sample
  | [] => []
  | seq :: rest =>
    if seq.Inputs.length = 1 then removeFirst rest
    else ⟨seq.Inputs.drop 1, seq.Outputs.drop 1⟩ :: removeFirst rest

/-- Embeds `filterContinued`: keep `ins[i]` only when sequence `i` has more than
one input left. -/
def filterContinued : List Sample → List Vec → List Vec
  | [], _ => []
  | seq :: rest, ins =>
    if 1 < seq.Inputs.length then ins.headD [] :: filterContinued rest (ins.drop 1)
    else filterContinued rest (ins.drop 1)

/-- Embeds `injectDiscontinued`: re-expand `outs` to one slot per sequence,
injecting a zero vector of width `vecLen` for every sequence with fewer
than two inputs. -/
def injectDiscontinued : List Sample → List Vec → Nat → List Vec
  | [], _, _ => []
  | s :: rest, outs, vecLen =>
    if 1 < s.Inputs.length then
      outs.headD [] :: injectDiscontinued rest (outs.drop 1) vecLen
    else zeroVec vecLen :: injectDiscontinued rest outs vecLen

/-- One retained memory record (`seqPropStep`): the captured start state
(only ever set on the first record of a fresh session), the Block's
outputs and out-states, the in-state variable values, and the sequences
as of that timestep. -/
structure SPRecord where
  startState : Option Vec
  outputs : List Vec
  outStates : List Vec
  inStates : List Vec
  inSeqs : List Sample
deriving DecidableEq, Inhabited

/-- The batch a `TimeStep` call actually operates on: on the very first
call (empty memory) sequences with no remaining input are dropped. -/
def effectiveBatch (memory : List SPRecord) (inSeqs : List Sample) : List Sample :=
  if memory.length = 0 then removeEmpty inSeqs else inSeqs

/-- Embeds `seqProp.headInput`: assemble the per-lane inputs (each sequence's
first input) and in-states (the previous record's surviving out-states, or
the start state on a fresh session).  `none` embeds the Go panics (lane
count mismatch with the previous record, or an empty sequence whose first
input is indexed). -/
def headInput (B : Block) (memory : List SPRecord) (seqs : List Sample) :
    Option (List Vec × List Vec) :=
  if seqs.any (fun seq => decide (seq.Inputs.length = 0)) then none
  else if memory.length ≠ 0 then
    if (filterContinued (memory.getLastD default).inSeqs
        (memory.getLastD default).outStates).length ≠ seqs.length then none
    else some (seqs.map (fun seq => seq.Inputs.headD []),
      filterContinued (memory.getLastD default).inSeqs
        (memory.getLastD default).outStates)
  else
    some (seqs.map (fun seq => seq.Inputs.headD []),
      seqs.map (fun _ => B.startState))

/-- Embeds `seqProp.TimeStep`: drop exhausted sequences on the first call, return
early on an empty batch, otherwise run the Block on the head inputs,
append exactly one record (capturing the start state only when memory was
empty), and return the batch with first inputs/targets consumed. -/
def TimeStep (B : Block) (memory : List SPRecord) (inSeqs : List Sample) :
    Option (List SPRecord × List Sample) :=
  if (effectiveBatch memory inSeqs).length = 0 then some (memory, [])
  else
    match headInput B memory (effectiveBatch memory inSeqs) with
    | none => none
    | some (ins, sts) =>
      some (memory ++ [⟨if memory.length = 0 then some B.startState else none,
          (B.batch ins sts).1, (B.batch ins sts).2, sts,
          effectiveBatch memory inSeqs⟩],
        removeFirst (effectiveBatch memory inSeqs))

/-- Embeds `seqProp.Truncate`: keep only the newest `n` records (`copy` from
offset `removeCount`, then re-slice to length `n`). -/
def Truncate (memory : List SPRecord) (n : Nat) : List SPRecord :=
  if memory.length - n = 0 then memory
  else memory.drop (memory.length - n)

/-- Collaborators of `seqProp.BackPropagate`: the cost function's
derivative (`costFuncDeriv`), each record's Block gradient closure
(`mem.Output.Gradient`), and the start state's `PropagateGradient`. -/
structure BPCollab where
  costDeriv : Vec → Vec → Vec
  recordGrad : Nat → RnnUpstream → GradMap → GradMap
  startProp : Vec → GradMap → GradMap

/-- One iteration of the `for i := s.MemoryCount() - 1; i >= lowIdx; i--`
loop of `BackPropagate`: build the output upstream inside the head window
from the cost derivative, allocate zero in-state gradient entries when
state gradients are wanted, run the record's gradient closure, then
harvest and delete the in-state entries and realign them to the previous
record's lane set with `injectDiscontinued` (record 0's gradients are kept
as is, for the start state). -/
def bpOutUp (C : BPCollab) (mem : List SPRecord) (lowHead i : Nat) : List Vec :=
  if lowHead ≤ i then
    (List.range (mem.getD i default).outputs.length).map (fun lane =>
      C.costDeriv (((mem.getD i default).inSeqs.getD lane default).Outputs.headD [])
        ((mem.getD i default).outputs.getD lane []))
  else []

/-- The zero in-state gradient allocations of one iteration
(`g[state] = make(linalg.Vector, s.Block.StateSize())`). -/
def bpG1 (B : Block) (mem : List SPRecord) (i : Nat) (g : GradMap) : GradMap :=
  (List.range (mem.getD i default).inStates.length).foldl
    (fun g lane => gset g (VarKey.inState i lane) (zeroVec B.stateSize)) g

/-- The gradient map after the record's Block closure has run. -/
def bpG2 (B : Block) (C : BPCollab) (mem : List SPRecord) (lowHead i : Nat)
    (acc : List Vec × GradMap) : GradMap :=
  C.recordGrad i ⟨bpOutUp C mem lowHead i, acc.1⟩ (bpG1 B mem i acc.2)

/-- The accumulated in-state gradients harvested from the map. -/
def bpStateGrads (B : Block) (C : BPCollab) (mem : List SPRecord)
    (lowHead i : Nat) (acc : List Vec × GradMap) : List Vec :=
  (List.range (mem.getD i default).inStates.length).map
    (fun lane => (bpG2 B C mem lowHead i acc (VarKey.inState i lane)).getD [])

/-- The gradient map after the in-state entries have been deleted. -/
def bpG3 (B : Block) (C : BPCollab) (mem : List SPRecord) (lowHead i : Nat)
    (acc : List Vec × GradMap) : GradMap :=
  (List.range (mem.getD i default).inStates.length).foldl
    (fun g lane => gdel g (VarKey.inState i lane)) (bpG2 B C mem lowHead i acc)

def bpIter (B : Block) (C : BPCollab) (mem : List SPRecord)
    (lowIdx lowHead : Nat) (getInit : Bool) (acc : List Vec × GradMap)
    (i : Nat) : List Vec × GradMap :=
  if lowIdx < i ∨ getInit = true then
    if (mem.getD i default).inStates.length ≠ 0 then
      (if 0 < i then
          injectDiscontinued (mem.getD (i - 1) default).inSeqs
            (bpStateGrads B C mem lowHead i acc) B.stateSize
        else bpStateGrads B C mem lowHead i acc,
       bpG3 B C mem lowHead i acc)
    else (acc.1, bpG2 B C mem lowHead i acc)
  else (acc.1, C.recordGrad i ⟨bpOutUp C mem lowHead i, acc.1⟩ acc.2)

/-- Embeds `lowIdx`, the lower bound of the replay window (Go clamps it at zero;
truncated subtraction does the same). -/
def bpWindow (mem : List SPRecord) (headSize tailSize : Nat) : Nat :=
  mem.length - (headSize + tailSize)

/-- The replay loop of `BackPropagate` over `i = count-1, ..., lowIdx`,
carrying the persistent `upstream.States` list and the gradient map. -/
def bpLoopRun (B : Block) (C : BPCollab) (mem : List SPRecord) (g : GradMap)
    (headSize tailSize : Nat) : List Vec × GradMap :=
  ((List.range (mem.length - bpWindow mem headSize tailSize)).map
    (fun j => mem.length - 1 - j)).foldl
    (bpIter B C mem (bpWindow mem headSize tailSize) (mem.length - headSize)
      ((mem.getD (bpWindow mem headSize tailSize) default).startState).isSome)
    ([], g)

/-- Embeds `seqProp.BackPropagate`: a no-op when the head size is zero or memory
is empty; otherwise replay the retained records newest-first over the
window `[lowIdx, count)` and finally propagate the surviving state
upstreams into the captured start state when the window's lower bound
carries one. -/
def backPropagate (B : Block) (C : BPCollab) (mem : List SPRecord)
    (g : GradMap) (headSize tailSize : Nat) : GradMap :=
  if headSize = 0 ∨ mem.length = 0 then g
  else if ((mem.getD (bpWindow mem headSize tailSize) default).startState).isSome then
    (bpLoopRun B C mem g headSize tailSize).1.foldl
      (fun g v => C.startProp v g) (bpLoopRun B C mem g headSize tailSize).2
  else (bpLoopRun B C mem g headSize tailSize).2

theorem truncate_eq_drop (mem : List SPRecord) (n : Nat) :
    Truncate mem n = mem.drop (mem.length - n) := by
  rw [Truncate]
  split
  · next h => rw [h, List.drop_zero]
  · rfl

/-- Claim C7: `seqProp.Truncate n` keeps exactly the newest
`min n MemoryCount` records in their original order (the reversed prefix
of the reversed memory), the new count is `min n (previous count)`,
truncating to at least the current count changes nothing, and truncating
to zero empties the memory. -/
theorem C7_truncate_keeps_newest (mem : List SPRecord) (n : Nat) :
    Truncate mem n = (mem.reverse.take n).reverse
    ∧ (Truncate mem n).length = min n mem.length
    ∧ (mem.length ≤ n → Truncate mem n = mem)
    ∧ Truncate mem 0 = [] := by
  refine ⟨?_, ?_, ?_, ?_⟩
  · rw [truncate_eq_drop]
    rw [← List.rtake_eq_reverse_take_reverse]
    rfl
  · rw [truncate_eq_drop, List.length_drop]
    omega
  · intro h
    rw [truncate_eq_drop]
    have : mem.length - n = 0 := by omega
    rw [this, List.drop_zero]
  · rw [truncate_eq_drop, Nat.sub_zero, List.drop_length]

/-- Witness for C7 at a concrete three-record memory truncated to 2. -/
theorem C7_witness :
    ((([⟨none, [], [], [], []⟩, ⟨some [1], [], [], [], []⟩,
        ⟨some [2], [], [], [], []⟩] : List SPRecord).length ≤ 5)
      ∧ Truncate [⟨none, [], [], [], []⟩, ⟨some [1], [], [], [], []⟩,
          ⟨some [2], [], [], [], []⟩] 5 =
        [⟨none, [], [], [], []⟩, ⟨some [1], [], [], [], []⟩,
          ⟨some [2], [], [], [], []⟩])
    ∧ Truncate [⟨none, [], [], [], []⟩, ⟨some [1], [], [], [], []⟩,
        ⟨some [2], [], [], [], []⟩] 2 =
      [⟨some [1], [], [], [], []⟩, ⟨some [2], [], [], [], []⟩] :=
  ⟨⟨by decide,
    (C7_truncate_keeps_newest [⟨none, [], [], [], []⟩, ⟨some [1], [], [], [], []⟩,
      ⟨some [2], [], [], [], []⟩] 5).2.2.1 (by decide)⟩,
    by decide⟩

/-- Claim C8: with empty memory, `seqProp.BackPropagate` is a no-op for
every head/tail size and every collaborator (so no Block propagation can
have been invoked and the caller's gradient map is untouched); in
particular after `Truncate 0`, which always empties the memory, it is a
no-op and does not crash. -/
theorem C8_backPropagate_noop_after_reset (B : Block) (C : BPCollab)
    (mem : List SPRecord) (g : GradMap) (headSize tailSize : Nat) :
    backPropagate B C [] g headSize tailSize = g
    ∧ Truncate mem 0 = []
    ∧ backPropagate B C (Truncate mem 0) g headSize tailSize = g := by
  have hz : Truncate mem 0 = [] := by
    rw [truncate_eq_drop, Nat.sub_zero, List.drop_length]
  have hnoop : backPropagate B C [] g headSize tailSize = g := by
    have h0 : ([] : List SPRecord).length = 0 := rfl
    rw [backPropagate, if_pos (Or.inr h0)]
  exact ⟨hnoop, hz, by rw [hz]; exact hnoop⟩

theorem headD_eq_getD_zero (l : List Vec) (d : Vec) : l.headD d = l.getD 0 d := by
  cases l <;> rfl

/-- Claim C3: the list of state gradients handed from memory record `i` to
record `i-1` is `injectDiscontinued` of record `i-1`'s sequences: it has
exactly one entry per lane of record `i-1`, a zero vector of the Block's
state size in every lane whose sequence has fewer than two remaining
inputs, and the surviving lanes' gradients in their original order; and
inside the `BackPropagate` loop (`bpIter`, interior record with lanes) the
handed-over list is exactly such an `injectDiscontinued` image. -/
theorem C3_injectDiscontinued_realigns :
    (∀ (seqs : List Sample) (outs : List Vec) (n : Nat),
      (injectDiscontinued seqs outs n).length = seqs.length
      ∧ ∀ i, i < seqs.length →
          (injectDiscontinued seqs outs n).getD i [] =
            (if 1 < (seqs.getD i default).Inputs.length
             then outs.getD
               ((seqs.take i).countP (fun s => decide (1 < s.Inputs.length))) []
             else zeroVec n))
    ∧ (∀ (B : Block) (C : BPCollab) (mem : List SPRecord)
        (lowIdx lowHead : Nat) (getInit : Bool) (acc : List Vec × GradMap) (i : Nat),
        lowIdx < i →
        (mem.getD i default).inStates.length ≠ 0 →
        (bpStateGrads B C mem lowHead i acc).length =
          (mem.getD i default).inStates.length
        ∧ (bpIter B C mem lowIdx lowHead getInit acc i).1 =
            injectDiscontinued (mem.getD (i - 1) default).inSeqs
              (bpStateGrads B C mem lowHead i acc) B.stateSize) := by
  constructor
  · intro seqs
    induction seqs with
    | nil =>
      intro outs n
      exact ⟨rfl, fun i hi => absurd hi (by simp)⟩
    | cons s rest ih =>
      intro outs n
      constructor
      · rw [injectDiscontinued]
        split
        · simpa using (ih (outs.drop 1) n).1
        · simpa using (ih outs n).1
      · intro i hi
        cases i with
        | zero =>
          rw [injectDiscontinued]
          split
          · next hs =>
            simp only [List.take_zero, List.countP_nil]
            rw [if_pos (by simpa using hs)]
            simpa using headD_eq_getD_zero outs []
          · next hs =>
            simp only [List.take_zero, List.countP_nil]
            rw [if_neg (by simpa using hs)]
            rfl
        | succ j =>
          have hj : j < rest.length := by simpa using hi
          rw [injectDiscontinued]
          have htake : (s :: rest).take (j + 1) = s :: rest.take j := rfl
          have hgetD : (s :: rest).getD (j + 1) default = rest.getD j default := by
            simp [List.getD]
          rw [htake, hgetD, List.countP_cons]
          split
          · next hs =>
            have hdecide : decide (1 < s.Inputs.length) = true := by simpa using hs
            have hcons : (outs.headD [] :: injectDiscontinued rest (outs.drop 1) n).getD
                (j + 1) [] = (injectDiscontinued rest (outs.drop 1) n).getD j [] := by
              simp [List.getD]
            rw [hcons, (ih (outs.drop 1) n).2 j hj, hdecide, if_pos rfl]
            split
            · rw [List.getD_eq_getElem?_getD, List.getD_eq_getElem?_getD,
                List.getElem?_drop, Nat.add_comm 1]
            · rfl
          · next hs =>
            have hdecide : decide (1 < s.Inputs.length) = false := by simpa using hs
            have hcons : (zeroVec n :: injectDiscontinued rest outs n).getD
                (j + 1) [] = (injectDiscontinued rest outs n).getD j [] := by
              simp [List.getD]
            rw [hcons, (ih outs n).2 j hj, hdecide]
            simp
  · intro B C mem lowIdx lowHead getInit acc i hlow hlen
    constructor
    · simp [bpStateGrads]
    · rw [bpIter, if_pos (Or.inl hlow), if_pos hlen, if_pos (by omega : 0 < i)]

/-- Witness for C3: a two-lane record where lane 1's sequence has one
input left gets a zero slot while lane 0's gradient survives in place. -/
theorem C3_witness :
    ((1 : Nat) < ([⟨[[1], [2]], [[0], [0]]⟩, ⟨[[1]], [[0]]⟩] : List Sample).length
      ∧ (injectDiscontinued [⟨[[1], [2]], [[0], [0]]⟩, ⟨[[1]], [[0]]⟩]
          [[5, 5]] 2).getD 1 [] = zeroVec 2)
    ∧ injectDiscontinued [⟨[[1], [2]], [[0], [0]]⟩, ⟨[[1]], [[0]]⟩] [[5, 5]] 2 =
        [[5, 5], [0, 0]] :=
  ⟨⟨by decide,
    by
      have h := (C3_injectDiscontinued_realigns.1
        [⟨[[1], [2]], [[0], [0]]⟩, ⟨[[1]], [[0]]⟩] [[5, 5]] 2).2 1 (by decide)
      rw [h]
      decide⟩,
    by decide⟩

theorem removeFirst_eq (seqs : List Sample) (h : ∀ s ∈ seqs, s.Inputs ≠ []) :
    removeFirst seqs = (seqs.filter (fun s => decide (1 < s.Inputs.length))).map
      (fun s => ⟨s.Inputs.drop 1, s.Outputs.drop 1⟩) := by
  induction seqs with
  | nil => rfl
  | cons s rest ih =>
    have hs := h s (List.mem_cons_self s rest)
    have hrest : ∀ x ∈ rest, x.Inputs ≠ [] :=
      fun x hx => h x (List.mem_cons_of_mem s hx)
    have hpos : s.Inputs.length ≠ 0 := fun h0 => hs (List.length_eq_zero.mp h0)
    rw [removeFirst, List.filter_cons]
    by_cases h1 : s.Inputs.length = 1
    · rw [if_pos h1]
      have hfalse : decide (1 < s.Inputs.length) = false := by
        have hnot : ¬ (1 < s.Inputs.length) := by omega
        simpa using hnot
      rw [hfalse]
      simp only [Bool.false_eq_true, if_false]
      exact ih hrest
    · rw [if_neg h1]
      have htrue : decide (1 < s.Inputs.length) = true := by
        have hlt : 1 < s.Inputs.length := by omega
        simpa using hlt
      rw [htrue, if_pos rfl, List.map_cons]
      rw [ih hrest]

/-- Counterexample to claim C6 as stated: on the very first call with the
non-empty batch `[⟨[], []⟩]` (one sequence, zero remaining inputs), the
first-call drop empties the batch and `TimeStep` returns without appending
any record, so a non-empty batch does not always append a record. -/
theorem C6_counterexample :
    (([⟨[], []⟩] : List Sample) ≠ [])
    ∧ TimeStep demoBlock [] [⟨[], []⟩] = some ([], [])
    ∧ Option.map (fun p => p.1.length) (TimeStep demoBlock [] [⟨[], []⟩]) = some 0 := by
  refine ⟨by decide, ?_, ?_⟩ <;> rfl

/-- Claim C6 (amended): on every call whose batch is non-empty after the
first-call drop of input-less sequences, and which satisfies the
documented preconditions (no empty sequence, lane count matching the
previous record's surviving lanes), `TimeStep` appends exactly one record
to memory, captures the start state in it only when memory was empty,
drops input-less sequences only on the first call (`effectiveBatch`), and
returns the batch with each sequence's first input and target removed,
omitting sequences thereby exhausted. -/
theorem C6_timeStep_appends_one_record (B : Block) (memory : List SPRecord)
    (inSeqs : List Sample)
    (hne : effectiveBatch memory inSeqs ≠ [])
    (hinputs : ∀ seq ∈ effectiveBatch memory inSeqs, seq.Inputs ≠ [])
    (hlanes : memory.length ≠ 0 →
      (filterContinued (memory.getLastD default).inSeqs
        (memory.getLastD default).outStates).length =
        (effectiveBatch memory inSeqs).length) :
    ∃ ins sts,
      headInput B memory (effectiveBatch memory inSeqs) = some (ins, sts)
      ∧ TimeStep B memory inSeqs = some
          (memory ++ [⟨if memory.length = 0 then some B.startState else none,
            (B.batch ins sts).1, (B.batch ins sts).2, sts,
            effectiveBatch memory inSeqs⟩],
           removeFirst (effectiveBatch memory inSeqs))
      ∧ removeFirst (effectiveBatch memory inSeqs) =
          ((effectiveBatch memory inSeqs).filter
            (fun s => decide (1 < s.Inputs.length))).map
            (fun s => ⟨s.Inputs.drop 1, s.Outputs.drop 1⟩) := by
  have hany : ¬ ((effectiveBatch memory inSeqs).any
      (fun seq => decide (seq.Inputs.length = 0)) = true) := by
    rw [List.any_eq_true]
    rintro ⟨seq, hseq, hp⟩
    have := hinputs seq hseq
    simp only [decide_eq_true_eq] at hp
    exact this (List.length_eq_zero.mp hp)
  obtain ⟨ins, sts, hhead⟩ : ∃ ins sts,
      headInput B memory (effectiveBatch memory inSeqs) = some (ins, sts) := by
    rw [headInput, if_neg hany]
    by_cases hmem : memory.length ≠ 0
    · rw [if_pos hmem, if_neg (by
        rw [hlanes hmem]
        exact fun h => h rfl)]
      exact ⟨_, _, rfl⟩
    · rw [if_neg hmem]
      exact ⟨_, _, rfl⟩
  refine ⟨ins, sts, hhead, ?_, removeFirst_eq _ hinputs⟩
  rw [TimeStep, if_neg (by
    intro h0
    exact hne (List.length_eq_zero.mp h0))]
  rw [hhead]

/-- Witness for C6 at a concrete first call: one record is appended (with
the start state captured) and the consumed batch is returned. -/
theorem C6_witness :
    (effectiveBatch [] [⟨[[1], [2]], [[5], [6]]⟩] ≠ []
      ∧ ∃ ins sts,
        headInput demoBlock [] (effectiveBatch [] [⟨[[1], [2]], [[5], [6]]⟩]) =
          some (ins, sts)
        ∧ TimeStep demoBlock [] [⟨[[1], [2]], [[5], [6]]⟩] = some
            (([] : List SPRecord) ++ [⟨if ([] : List SPRecord).length = 0
                then some demoBlock.startState else none,
              (demoBlock.batch ins sts).1, (demoBlock.batch ins sts).2, sts,
              effectiveBatch [] [⟨[[1], [2]], [[5], [6]]⟩]⟩],
             removeFirst (effectiveBatch [] [⟨[[1], [2]], [[5], [6]]⟩]))
        ∧ removeFirst (effectiveBatch [] [⟨[[1], [2]], [[5], [6]]⟩]) =
            ((effectiveBatch [] [⟨[[1], [2]], [[5], [6]]⟩]).filter
              (fun s => decide (1 < s.Inputs.length))).map
              (fun s => ⟨s.Inputs.drop 1, s.Outputs.drop 1⟩))
    ∧ Option.map (fun p => p.1.length)
        (TimeStep demoBlock [] [⟨[[1], [2]], [[5], [6]]⟩]) = some 1 :=
  ⟨⟨by decide,
    C6_timeStep_appends_one_record demoBlock [] [⟨[[1], [2]], [[5], [6]]⟩]
      (by decide) (by decide) (fun h => absurd rfl h)⟩,
    by rfl⟩

/-! ### Capability negotiation (src/unnamed/part_000 lines 126-156,
src/rnn/block_seq_func.go lines 131-153)

A sub-`SeqFunc`'s optional capabilities: `params` is `some` exactly when
the value implements `sgd.Learner`, `serial` is `some` (the encoded bytes)
exactly when it implements `serializer.Serializer`; `typeName` is the Go
dynamic type shown by the `%T` verb. -/
structure SubFunc where
  typeName : String
  params : Option (List Vec)
  serial : Option (List Int)

/-- The three internal sub-functions of a `Bidirectional`. -/
structure BidirCap where
  Forward : SubFunc
  Backward : SubFunc
  Output : SubFunc

/-- The loop of `Bidirectional.Serialize`: collect each sub-function's
serializer, failing with a typed error naming the first value that is not
a `serializer.Serializer`. -/
def collectSerializers : List SubFunc → Except String (List (List Int))
  | [] => Except.ok []
  | x :: rest =>
    match x.serial with
    | none => Except.error ("type cannot be serialized: " ++ x.typeName)
    | some sx =>
      match collectSerializers rest with
      | Except.error e => Except.error e
      | Except.ok r => Except.ok (sx :: r)

/-- Embeds `Bidirectional.Serialize` up to the external `SerializeSlice` encoding. -/
def bidirSerialize (b : BidirCap) : Except String (List (List Int)) :=
  collectSerializers [b.Forward, b.Backward, b.Output]

/-- Embeds `Bidirectional.Parameters`: concatenates the parameters of the
sub-functions that are `sgd.Learner`s, silently treating the others as
having no parameters. -/
def bidirParameters (b : BidirCap) : List Vec :=
  ([b.Forward, b.Backward, b.Output].filterMap (fun x => x.params)).flatten

/-- Embeds `BlockSeqFunc.Parameters`: the block's parameters if it is an
`sgd.Learner`, `nil` otherwise. -/
def blockSeqFuncParameters (blockParams : Option (List Vec)) : List Vec :=
  match blockParams with
  | some p => p
  | none => []

/-- Counterexample to claim C9 as stated: a parameters request on a
`Bidirectional` (or a `BlockSeqFunc`) whose sub-functions lack the
capability does not fail — it silently returns an empty parameter list. -/
theorem C9_counterexample :
    bidirParameters ⟨⟨"rnn.testSeqFunc", none, none⟩,
      ⟨"rnn.testSeqFunc", none, none⟩, ⟨"rnn.testSeqFunc", none, none⟩⟩ = []
    ∧ blockSeqFuncParameters none = [] :=
  ⟨rfl, rfl⟩

/-- Claim C9 (amended): `Bidirectional.Serialize` fails with a typed,
recoverable error naming the first sub-function type that is not
serializable, and succeeds when all three are; a parameters request,
however, silently degrades: sub-functions without the capability simply
contribute no parameters (and `BlockSeqFunc.Parameters` returns nil). -/
theorem C9_capability_negotiation (b : BidirCap) :
    (b.Forward.serial = none →
      bidirSerialize b =
        Except.error ("type cannot be serialized: " ++ b.Forward.typeName))
    ∧ (∀ sf, b.Forward.serial = some sf → b.Backward.serial = none →
      bidirSerialize b =
        Except.error ("type cannot be serialized: " ++ b.Backward.typeName))
    ∧ (∀ sf sb, b.Forward.serial = some sf → b.Backward.serial = some sb →
        b.Output.serial = none →
      bidirSerialize b =
        Except.error ("type cannot be serialized: " ++ b.Output.typeName))
    ∧ (∀ sf sb so, b.Forward.serial = some sf → b.Backward.serial = some sb →
        b.Output.serial = some so →
      bidirSerialize b = Except.ok [sf, sb, so])
    ∧ (b.Forward.params = none → b.Backward.params = none →
        b.Output.params = none → bidirParameters b = [])
    ∧ (∀ p, blockSeqFuncParameters (some p) = p)
    ∧ blockSeqFuncParameters none = [] := by
  refine ⟨?_, ?_, ?_, ?_, ?_, fun p => rfl, rfl⟩
  · intro h
    rw [bidirSerialize, collectSerializers, h]
  · intro sf hf hb
    rw [bidirSerialize, collectSerializers, hf]
    rw [collectSerializers, hb]
  · intro sf sb hf hb ho
    rw [bidirSerialize, collectSerializers, hf]
    rw [collectSerializers, hb]
    rw [collectSerializers, ho]
  · intro sf sb so hf hb ho
    rw [bidirSerialize, collectSerializers, hf]
    rw [collectSerializers, hb]
    rw [collectSerializers, ho]
    rfl
  · intro hf hb ho
    rw [bidirParameters]
    rw [List.filterMap]
    simp [hf, hb, ho, List.filterMap]

/-- Witness for C9: concrete sub-functions where only the backward one is
not serializable; `Serialize` fails naming it, `Parameters` succeeds. -/
theorem C9_witness :
    (((⟨⟨"rnn.BlockSeqFunc", none, some [1]⟩, ⟨"rnn.testSeqFunc", none, none⟩,
        ⟨"rnn.BlockSeqFunc", none, some [3]⟩⟩ : BidirCap)).Forward.serial = some [1]
      ∧ bidirSerialize ⟨⟨"rnn.BlockSeqFunc", none, some [1]⟩,
          ⟨"rnn.testSeqFunc", none, none⟩, ⟨"rnn.BlockSeqFunc", none, some [3]⟩⟩ =
        Except.error ("type cannot be serialized: " ++ "rnn.testSeqFunc"))
    ∧ bidirParameters ⟨⟨"rnn.BlockSeqFunc", none, some [1]⟩,
        ⟨"rnn.testSeqFunc", none, none⟩, ⟨"rnn.BlockSeqFunc", none, some [3]⟩⟩ = [] :=
  ⟨⟨rfl,
    (C9_capability_negotiation ⟨⟨"rnn.BlockSeqFunc", none, some [1]⟩,
      ⟨"rnn.testSeqFunc", none, none⟩,
      ⟨"rnn.BlockSeqFunc", none, some [3]⟩⟩).2.1 [1] rfl rfl⟩,
    rfl⟩
